/-
Verification of the fundamental-matrix estimation pipeline
(`utils.py`: `fundamental_matrix`, `process_input_pointpairs`,
`eight_point_algorithm`, `constraint_matrix`, `normalize2dpts`;
`Q1.py`: `epipolar_distance`) against its natural-language specification.

Modelling conventions:
* numpy 2-D float arrays are modelled as `NpArr K`: explicit row/column
  counts plus an entry function.  The validation layer only inspects
  shapes and performs field arithmetic, so it is embedded over `ℚ`
  (computable, decidable); the numeric layer (`normalize2dpts`,
  `eight_point_algorithm`, `epipolar_distance`) involves square roots
  and is embedded over `ℝ`.
* The only exception class in the source is `ShapeError`; the distinct
  `raise` sites are modelled by the enumeration `ErrKind`, and catching
  the exception in `fundamental_matrix` (print + `return None`) is
  modelled by returning the raised kind's message alongside `none`.
* `np.linalg.svd` is an external LAPACK routine; code consuming it is
  parameterised by the factor matrices it returns, and theorems
  hypothesise exactly the properties a singular value decomposition
  guarantees at the matrices being decomposed.
* numpy aliasing semantics used by the source: `np.r_` and `.copy()`
  allocate fresh arrays; `a.T`, `a[0:3]` and `a[:, 0:3]` are views of
  `a`; the fancy-indexed assignments in `normalize2dpts` (lines
  129-131) write in place through such views.  The caller-visible
  effect of those writes is modelled explicitly (`callerAfter2`,
  `callerAfter1`).
-/
import Mathlib

set_option maxHeartbeats 1600000

/-- 2-D numpy array over scalars `K`: shape plus entries. -/
structure NpArr (K : Type) where
  rows : ℕ
  cols : ℕ
  data : Fin rows → Fin cols → K

/-- Total entry accessor (out-of-range reads default to 0; the embedded
code only reads in range). -/
def NpArr.entry {K : Type} [Zero K] (a : NpArr K) (i j : ℕ) : K :=
  if h : i < a.rows then
    if h2 : j < a.cols then a.data ⟨i, h⟩ ⟨j, h2⟩ else 0
  else 0

/-- The distinct `raise ShapeError(...)` sites of `utils.py`, in source
order. -/
inductive ErrKind where
  | shapeMismatch
  | notTwoDim
  | insufficientPoints
  | invalidDimPair
  | invalidDimSingle
  | wrongArgCount
  | notThreeByN
  deriving DecidableEq, Repr

/-- The exception message attached at each raise site. -/
def ErrKind.msg : ErrKind → String
  | .shapeMismatch => "the two arguments should have same size"
  | .notTwoDim => "Each input has to be a 2D array"
  | .insufficientPoints => "At least 8 points are needed to compute the fundamental matrix"
  | .invalidDimPair => "x1 and x2 must be 2xN or Nx2 or 3xN or Nx3"
  | .invalidDimSingle => "Single argument x must be 4xN or Nx4 or 6xN or Nx6"
  | .wrongArgCount => "Wrong number of arguments supplied"
  | .notThreeByN => "pts must be 3xN"

/-- Canonical output of preprocessing: the point count together with the
two 3×N homogeneous arrays, given as total entry functions
(row index, column index). -/
abbrev Canon : Type := ℕ × (ℕ → ℕ → ℚ) × (ℕ → ℕ → ℚ)

/-- `process_input_pointpairs` (utils.py lines 22-77).  Inputs are 2-D
arrays by construction of `NpArr`, so the source's `ndim == 2` checks
cannot fire and are omitted.  Branch structure and branch order follow
the source exactly. -/
def process_input_pointpairs (args : List (NpArr ℚ)) : Except ErrKind Canon :=
  match args with
  | [x1, x2] =>
    if ¬(x1.rows = x2.rows ∧ x1.cols = x2.cols) then .error .shapeMismatch
    else
      let npts := max x1.rows x1.cols
      let d := min x1.rows x1.cols
      if npts < 8 then .error .insufficientPoints
      else if d = 2 then
        if x1.rows = 2 then
          -- fat: np.r_[x1, ones]
          .ok (npts, fun i j => if i < 2 then x1.entry i j else 1,
                     fun i j => if i < 2 then x2.entry i j else 1)
        else
          -- tall: np.r_[x1.T, ones]
          .ok (npts, fun i j => if i < 2 then x1.entry j i else 1,
                     fun i j => if i < 2 then x2.entry j i else 1)
      else if d = 3 then
        if x1.cols = 3 then
          -- tall: x1.T
          .ok (npts, fun i j => x1.entry j i, fun i j => x2.entry j i)
        else
          .ok (npts, fun i j => x1.entry i j, fun i j => x2.entry i j)
      else .error .invalidDimPair
  | [x] =>
    let npts := max x.rows x.cols
    let d := min x.rows x.cols
    if npts < 8 then .error .insufficientPoints
    else if d = 4 then
      if x.rows = 4 then
        .ok (npts, fun i j => if i < 2 then x.entry i j else 1,
                   fun i j => if i < 2 then x.entry (i + 2) j else 1)
      else
        .ok (npts, fun i j => if i < 2 then x.entry j i else 1,
                   fun i j => if i < 2 then x.entry j (i + 2) else 1)
    else if d = 6 then
      if x.rows = 6 then
        .ok (npts, fun i j => x.entry i j, fun i j => x.entry (i + 3) j)
      else
        .ok (npts, fun i j => x.entry j i, fun i j => x.entry j (i + 3))
    else .error .invalidDimSingle
  | _ => .error .wrongArgCount

/-- `fundamental_matrix` (utils.py lines 12-19), parameterised by the
solver stage (`eight_point_algorithm`, which consumes external SVD
results).  The `except ShapeError` handler prints the message and
returns `None`; the model returns the printed message next to the
(absent) matrix. -/
def fundamental_matrix {F : Type} (solver : Canon → Bool → F)
    (args : List (NpArr ℚ)) (normalize : Bool) : Option String × Option F :=
  match process_input_pointpairs args with
  | .error e => (some e.msg, none)
  | .ok c => (none, some (solver c normalize))

/-- Machine epsilon of IEEE double precision, `np.finfo(float).eps`,
exactly `2⁻⁵²` (a rational number). -/
def epsQ : ℚ := 1 / 2 ^ 52

/-- The in-place de-homogenisation performed by `normalize2dpts`
(utils.py lines 128-131) on a 3×N array given by a total entry
function: rows 0 and 1 are divided by row 2 and row 2 is set to 1, at
every column whose third coordinate exceeds machine epsilon in
absolute value. -/
def dehomE (f : ℕ → ℕ → ℚ) : ℕ → ℕ → ℚ := fun i j =>
  if epsQ < |f 2 j| then (if i = 2 then 1 else f i j / f 2 j) else f i j

/-- State of the two caller-supplied arrays after
`fundamental_matrix(a, b, normalize=normalize)` returns.  Mutation can
only happen inside `normalize2dpts`, which is reached when validation
succeeds and `normalize` is true; it writes through the canonical
arrays, which alias the caller's memory exactly in the homogeneous
pair layouts (3×N: the array itself; N×3: its transpose view).  In the
Euclidean layouts `np.r_` has already copied, so the caller's arrays
are untouched. -/
def callerAfter2 (a b : NpArr ℚ) (normalize : Bool) : NpArr ℚ × NpArr ℚ :=
  if ¬(a.rows = b.rows ∧ a.cols = b.cols) then (a, b)
  else if max a.rows a.cols < 8 then (a, b)
  else if min a.rows a.cols = 2 then (a, b)
  else if min a.rows a.cols = 3 then
    if normalize then
      if a.cols = 3 then
        (⟨a.rows, a.cols, fun i j => dehomE (fun p q => a.entry q p) j.val i.val⟩,
         ⟨b.rows, b.cols, fun i j => dehomE (fun p q => b.entry q p) j.val i.val⟩)
      else
        (⟨a.rows, a.cols, fun i j => dehomE a.entry i.val j.val⟩,
         ⟨b.rows, b.cols, fun i j => dehomE b.entry i.val j.val⟩)
    else (a, b)
  else (a, b)

/-- State of the single caller-supplied combined array after
`fundamental_matrix(x, normalize=normalize)` returns; see
`callerAfter2`.  The 6×N and N×6 layouts hand `normalize2dpts` row- or
column-slice views of the caller's array. -/
def callerAfter1 (x : NpArr ℚ) (normalize : Bool) : NpArr ℚ :=
  if max x.rows x.cols < 8 then x
  else if min x.rows x.cols = 4 then x
  else if min x.rows x.cols = 6 then
    if normalize then
      if x.rows = 6 then
        ⟨x.rows, x.cols, fun i j =>
          if i.val < 3 then dehomE x.entry i.val j.val
          else dehomE (fun p q => x.entry (p + 3) q) (i.val - 3) j.val⟩
      else
        ⟨x.rows, x.cols, fun i j =>
          if j.val < 3 then dehomE (fun p q => x.entry q p) j.val i.val
          else dehomE (fun p q => x.entry q (p + 3)) (j.val - 3) i.val⟩
    else x
  else x

/-! ## Numeric layer (over `ℝ`)

The float computations of the source are embedded over the real
numbers; they use `Real.sqrt` and real division, hence this section is
`noncomputable` (Lean's exact reals have no executable arithmetic).
Lean's convention `x / 0 = 0` replaces IEEE `inf`/`nan` propagation;
every place where a division by zero is reachable is flagged at the
theorem concerned. -/

noncomputable section

abbrev M3 : Type := Matrix (Fin 3) (Fin 3) ℝ

/-- Machine epsilon of IEEE double precision, `np.finfo(float).eps = 2⁻⁵²`. -/
def machEps : ℝ := 1 / 2 ^ 52

/-- `finiteind` (utils.py line 128): the columns whose third homogeneous
coordinate exceeds machine epsilon in absolute value. -/
def finIdx {n : ℕ} (p : Matrix (Fin 3) (Fin n) ℝ) : Finset (Fin n) :=
  Finset.univ.filter fun j => machEps < |p 2 j|

/-- The de-homogenised array after the in-place writes of utils.py
lines 129-131. -/
def dehom {n : ℕ} (p : Matrix (Fin 3) (Fin n) ℝ) : Matrix (Fin 3) (Fin n) ℝ :=
  Matrix.of fun i j =>
    if machEps < |p 2 j| then (if i = 2 then 1 else p i j / p 2 j) else p i j

/-- First coordinate of the centroid of the finite points
(utils.py line 134); `np.mean` divides by the number of selected
columns. -/
def centroid0 {n : ℕ} (p : Matrix (Fin 3) (Fin n) ℝ) : ℝ :=
  (∑ j ∈ finIdx p, dehom p 0 j) / (finIdx p).card

/-- Second coordinate of the centroid of the finite points. -/
def centroid1 {n : ℕ} (p : Matrix (Fin 3) (Fin n) ℝ) : ℝ :=
  (∑ j ∈ finIdx p, dehom p 1 j) / (finIdx p).card

/-- Mean distance of the centred finite points from the origin
(utils.py line 140). -/
def meandist {n : ℕ} (p : Matrix (Fin 3) (Fin n) ℝ) : ℝ :=
  (∑ j ∈ finIdx p,
    Real.sqrt ((dehom p 0 j - centroid0 p) ^ 2 + (dehom p 1 j - centroid1 p) ^ 2)) /
    (finIdx p).card

/-- `scale = np.sqrt(2) / meandist` (utils.py line 142). -/
def scaleOf {n : ℕ} (p : Matrix (Fin 3) (Fin n) ℝ) : ℝ :=
  Real.sqrt 2 / meandist p

/-- The similarity transform `T` built in utils.py lines 148-152. -/
def normT {n : ℕ} (p : Matrix (Fin 3) (Fin n) ℝ) : M3 :=
  ![![scaleOf p, 0, -(scaleOf p) * centroid0 p],
    ![0, scaleOf p, -(scaleOf p) * centroid1 p],
    ![0, 0, 1]]

/-- `newpts = np.dot(T, pts)` (utils.py line 153), applied to the
mutated (de-homogenised) points. -/
def normPts {n : ℕ} (p : Matrix (Fin 3) (Fin n) ℝ) : Matrix (Fin 3) (Fin n) ℝ :=
  normT p * dehom p

/-- `normalize2dpts` on a 3×N array (the shape guard of line 125-126
cannot fire at this type; see `normalize2dpts_checked`). -/
def normalize2dpts {n : ℕ} (p : Matrix (Fin 3) (Fin n) ℝ) :
    Matrix (Fin 3) (Fin n) ℝ × M3 :=
  (normPts p, normT p)

/-- `normalize2dpts` on an arbitrary 2-D array, including the
`ShapeError('pts must be 3xN')` raise site (utils.py lines 125-126).
This is the complete list of error exits of the function: no other
`raise` occurs in its body. -/
def normalize2dpts_checked (a : NpArr ℝ) :
    Except ErrKind (Matrix (Fin 3) (Fin a.cols) ℝ × M3) :=
  if a.rows = 3 then
    .ok (normalize2dpts (Matrix.of fun i j => a.entry i.val j.val))
  else .error .notThreeByN

/-- The explicit inverse of `normT p`, used to state what
denormalisation undoes; `normT p * normTinv p = 1` whenever
`meandist p ≠ 0` (see `normT_mul_normTinv`). -/
def normTinv {n : ℕ} (p : Matrix (Fin 3) (Fin n) ℝ) : M3 :=
  ![![meandist p / Real.sqrt 2, 0, centroid0 p],
    ![0, meandist p / Real.sqrt 2, centroid1 p],
    ![0, 0, 1]]

end

/-- `constraint_matrix` (utils.py lines 105-110): row `j` is the
outer-product expansion of the epipolar constraint, built from the raw
first and second rows of the inputs.  Generic in the scalar field so
that the same definition serves the decidable `ℚ` instances and the
`ℝ` pipeline. -/
def constraint_matrix {K : Type} [Field K] {n : ℕ}
    (x1 x2 : Matrix (Fin 3) (Fin n) K) : Matrix (Fin n) (Fin 9) K :=
  Matrix.of fun j k =>
    ![x2 0 j * x1 0 j, x2 0 j * x1 1 j, x2 0 j,
      x2 1 j * x1 0 j, x2 1 j * x1 1 j, x2 1 j,
      x1 0 j, x1 1 j, 1] k

/-- The constraint matrix as claim C8 words it: the same expansion but
over the de-homogenised coordinates (each coordinate divided by the
third homogeneous component). -/
def constraint_matrix_claim {K : Type} [Field K] {n : ℕ}
    (x1 x2 : Matrix (Fin 3) (Fin n) K) : Matrix (Fin n) (Fin 9) K :=
  Matrix.of fun j k =>
    ![(x2 0 j / x2 2 j) * (x1 0 j / x1 2 j), (x2 0 j / x2 2 j) * (x1 1 j / x1 2 j),
      x2 0 j / x2 2 j,
      (x2 1 j / x2 2 j) * (x1 0 j / x1 2 j), (x2 1 j / x2 2 j) * (x1 1 j / x1 2 j),
      x2 1 j / x2 2 j,
      x1 0 j / x1 2 j, x1 1 j / x1 2 j, 1] k

/-- `v.reshape(3, 3)` for a flat 9-vector, row-major as in numpy. -/
def matOf {K : Type} (w : Fin 9 → K) : Matrix (Fin 3) (Fin 3) K :=
  Matrix.of fun i j => w ⟨3 * i.val + j.val, by omega⟩

/-- Row-major flattening, inverse to `matOf` (see `matOf_flatF`). -/
def flatF {K : Type} (M : Matrix (Fin 3) (Fin 3) K) : Fin 9 → K :=
  ![M 0 0, M 0 1, M 0 2, M 1 0, M 1 1, M 1 2, M 2 0, M 2 1, M 2 2]

/-- Extraction of `F₀` from the SVD of the constraint matrix
(utils.py lines 91-93): `V = Vh.conj().T` and `F₀ = V[:, 8].reshape(3, 3)`,
i.e. the reshaped row 8 of the returned `Vh` (conjugation is the
identity on real data). -/
def extractF0 {K : Type} (Vh9 : Matrix (Fin 9) (Fin 9) K) : Matrix (Fin 3) (Fin 3) K :=
  matOf fun k => Vh9 8 k

/-- The rank-2 reduction step (utils.py lines 96-97): given the SVD
factors `(U, D, Vh)` that `np.linalg.svd(F₀)` returned, rebuild
`U · diag(D₀, D₁, 0) · Vh`. -/
noncomputable def rank2_reduce (U : M3) (D : Fin 3 → ℝ) (Vh : M3) : M3 :=
  U * Matrix.diagonal ![D 0, D 1, 0] * Vh

/-- `eight_point_algorithm` (utils.py lines 80-102) downstream of the
two external SVD calls, parameterised by the factors the second SVD
returned and by the two normalising transforms: the rank-2 reduced
matrix, denormalised by `T2ᵀ · F · T1` exactly when `normalize` was
requested. -/
noncomputable def eight_point_algorithm (normalize : Bool) (T1 T2 : M3)
    (U : M3) (D : Fin 3 → ℝ) (Vh : M3) : M3 :=
  if normalize then T2.transpose * rank2_reduce U D Vh * T1
  else rank2_reduce U D Vh

/-! ## Error metrics (Q1.py) -/

/-- One summand of `epipolar_distance` (Q1.py lines 93-94): the squared
residual of the point against the line, divided by the square root of
the squared line-normal magnitude. -/
noncomputable def epipolar_term (pt : ℝ × ℝ) (line : ℝ × ℝ × ℝ) : ℝ :=
  (pt.1 * line.1 + pt.2 * line.2.1 + line.2.2) ^ 2 /
    Real.sqrt (line.1 ^ 2 + line.2.1 ^ 2)

/-- `epipolar_distance` (Q1.py lines 87-99): the loop over
`zip(l_pts, r_pts, l_lines, r_lines)` accumulating left and right
terms, finally divided by `len(l_pts)`.  (Line 89 also reads the
global image's shape into `r, c`, which the function never uses; that
read has no effect on the value and is omitted.) -/
noncomputable def epipolar_distance (l_pts r_pts : List (ℝ × ℝ))
    (l_lines r_lines : List (ℝ × ℝ × ℝ)) : ℝ :=
  (((l_pts.zip r_pts).zip (l_lines.zip r_lines)).map
      fun q => epipolar_term q.1.1 q.2.1 + epipolar_term q.1.2 q.2.2).sum /
    l_pts.length

/-- One summand of the symmetric epipolar distance as claim C1 words
it: squared residual divided by the squared magnitude `a² + b²` of the
line normal. -/
noncomputable def epipolar_term_claim (pt : ℝ × ℝ) (line : ℝ × ℝ × ℝ) : ℝ :=
  (pt.1 * line.1 + pt.2 * line.2.1 + line.2.2) ^ 2 /
    (line.1 ^ 2 + line.2.1 ^ 2)

/-- The symmetric epipolar distance as claim C1 words it. -/
noncomputable def epipolar_distance_claim (l_pts r_pts : List (ℝ × ℝ))
    (l_lines r_lines : List (ℝ × ℝ × ℝ)) : ℝ :=
  (((l_pts.zip r_pts).zip (l_lines.zip r_lines)).map
      fun q => epipolar_term_claim q.1.1 q.2.1 + epipolar_term_claim q.1.2 q.2.2).sum /
    l_pts.length

/-- The mean-of-per-point-terms form of the metric actually computed by
the code, used to state the amended claim C1. -/
noncomputable def epipolar_distance_mean (n : ℕ) (lp rp : Fin n → ℝ × ℝ)
    (ll rl : Fin n → ℝ × ℝ × ℝ) : ℝ :=
  (∑ i, (epipolar_term (lp i) (ll i) + epipolar_term (rp i) (rl i))) / n

/-- The right-image epipolar lines as Q1.py line 153 derives them from a
fundamental matrix: `np.dot(F, (pl[0], pl[1], 1))` for each left point. -/
noncomputable def epipolar_lines_right (F : M3) (pts : List (ℝ × ℝ)) :
    List (ℝ × ℝ × ℝ) :=
  pts.map fun p =>
    (F.mulVec ![p.1, p.2, 1] 0, F.mulVec ![p.1, p.2, 1] 1, F.mulVec ![p.1, p.2, 1] 2)

/-- The left-image epipolar lines as Q1.py line 154 derives them from a
fundamental matrix: `np.dot(np.transpose(F), (pr[0], pr[1], 1))` for each
right point. -/
noncomputable def epipolar_lines_left (F : M3) (pts : List (ℝ × ℝ)) :
    List (ℝ × ℝ × ℝ) :=
  pts.map fun p =>
    (F.transpose.mulVec ![p.1, p.2, 1] 0, F.transpose.mulVec ![p.1, p.2, 1] 1,
      F.transpose.mulVec ![p.1, p.2, 1] 2)

/-! ## Concrete instances used by witnesses and counterexamples -/

noncomputable section

/-- A rank-2 fundamental matrix (twice the rectified-stereo matrix
`[[0,0,0],[0,0,-1],[0,1,0]]`) used to derive genuinely matching epipolar
lines for the C1 counterexample. -/
def F_C1 : M3 := Matrix.of ![![0, 0, 0], ![0, 0, -2], ![0, 2, 0]]

/-- Eight finite points (±1,0), (0,±1) twice, in homogeneous form:
centroid 0, every distance from the centroid equal to 1. -/
def p8W : Matrix (Fin 3) (Fin 8) ℝ :=
  Matrix.of ![![1, -1, 0, 0, 1, -1, 0, 0],
              ![0, 0, 1, -1, 0, 0, 1, -1],
              ![1, 1, 1, 1, 1, 1, 1, 1]]

/-- Eight copies of the single finite point (1,1): the degenerate
all-identical configuration. -/
def pDegW : Matrix (Fin 3) (Fin 8) ℝ := Matrix.of fun _ _ => 1

/-- Left image points of the C9 instance: eight points on the circle
of radius √50 about the origin (centroid 0, mean distance 5√2). -/
def x1W : Matrix (Fin 3) (Fin 8) ℝ :=
  Matrix.of ![![1, 7, 5, -1, 1, -1, -7, -5],
              ![7, 1, 5, 7, -7, -7, -1, -5],
              ![1, 1, 1, 1, 1, 1, 1, 1]]

/-- Right image points of the C9 instance: same y as on the left
(rectified geometry), centroid 0, mean distance (19/4)√2. -/
def x2W : Matrix (Fin 3) (Fin 8) ℝ :=
  Matrix.of ![![1, 1, 5, 1, 1, -7, -7, 5],
              ![7, 1, 5, 7, -7, -7, -1, -5],
              ![1, 1, 1, 1, 1, 1, 1, 1]]

/-- The true fundamental matrix of the rectified C9 instance:
`x2ᵗ F x1 = y1 - y2`. -/
def FstarW : M3 := Matrix.of ![![0, 0, 0], ![0, 0, -1], ![0, 1, 0]]

/-- Row-major flattening of `FstarW`. -/
def vFW : Fin 9 → ℝ := ![0, 0, 0, 0, 0, -1, 0, 1, 0]

/-- A 9×9 right-factor matrix whose row 8 is `vFW` (the part of the
SVD of the direct constraint matrix that the solver reads). -/
def VhAW : Matrix (Fin 9) (Fin 9) ℝ := Matrix.of fun i k => if i = 8 then vFW k else 0

/-- Left orthogonal factor of the SVD of `FstarW`. -/
def U1W : M3 := Matrix.of ![![0, 0, 1], ![-1, 0, 0], ![0, 1, 0]]

/-- Singular values of `FstarW`, descending. -/
def D1W : Fin 3 → ℝ := ![1, 1, 0]

/-- Right factor (`Vh`) of the SVD of `FstarW`. -/
def Vh1W : M3 := Matrix.of ![![0, 0, 1], ![0, 1, 0], ![1, 0, 0]]

/-- The true fundamental matrix of the normalised C9 instance,
`(T2⁻¹)ᵀ · FstarW · T1⁻¹` for the scales 1/5 and 4/19. -/
def GstarW : M3 := Matrix.of ![![0, 0, 0], ![0, 0, -(19 / 4)], ![0, 5, 0]]

/-- Row-major flattening of `GstarW`. -/
def vGW : Fin 9 → ℝ := ![0, 0, 0, 0, 0, -(19 / 4), 0, 5, 0]

/-- A 9×9 right-factor matrix whose row 8 is `vGW`. -/
def VhBW : Matrix (Fin 9) (Fin 9) ℝ := Matrix.of fun i k => if i = 8 then vGW k else 0

/-- Left orthogonal factor of the SVD of `GstarW`. -/
def U2W : M3 := Matrix.of ![![0, 0, 1], ![0, -1, 0], ![1, 0, 0]]

/-- Singular values of `GstarW`, descending. -/
def D2W : Fin 3 → ℝ := ![5, 19 / 4, 0]

/-- Right factor (`Vh`) of the SVD of `GstarW`. -/
def Vh2W : M3 := Matrix.of ![![0, 1, 0], ![0, 0, 1], ![1, 0, 0]]

/-- A 3×8 array with every third homogeneous coordinate equal to 0:
all points at infinity, no finite point. -/
def aInfW : NpArr ℝ := ⟨3, 8, fun i _ => if i.val = 2 then 0 else 1⟩

/-- A 3×8 homogeneous array whose third coordinates are 2 (so
de-homogenisation changes rows 0 and 1). -/
def aMutW : NpArr ℚ := ⟨3, 8, fun i _ => if i.val = 2 then 2 else 1⟩

/-- A single homogeneous point (2, 4, 2), whose de-homogenised
coordinates are (1, 2). -/
def xC8 : Matrix (Fin 3) (Fin 1) ℚ := Matrix.of fun i _ => ![2, 4, 2] i

/-- A single homogeneous point (1, 2, 1) with third coordinate 1. -/
def xOnesC8 : Matrix (Fin 3) (Fin 1) ℚ := Matrix.of fun i _ => ![1, 2, 1] i

end

/-! ## Shared lemmas -/

theorem machEps_pos : 0 < machEps := by norm_num [machEps]

theorem machEps_lt_one : machEps < 1 := by norm_num [machEps]

theorem sqrtTwo_pos : 0 < Real.sqrt 2 := Real.sqrt_pos.mpr (by norm_num)

theorem finIdx_univ {n : ℕ} (p : Matrix (Fin 3) (Fin n) ℝ)
    (h : ∀ j, machEps < |p 2 j|) : finIdx p = Finset.univ :=
  Finset.filter_true_of_mem fun j _ => h j

theorem thirdOne_finite {n : ℕ} (p : Matrix (Fin 3) (Fin n) ℝ)
    (h : ∀ j, p 2 j = 1) : ∀ j, machEps < |p 2 j| := by
  intro j; rw [h j, abs_one]; exact machEps_lt_one

theorem dehom_of_thirdOne {n : ℕ} (p : Matrix (Fin 3) (Fin n) ℝ)
    (h : ∀ j, p 2 j = 1) : dehom p = p := by
  ext i j
  have hj : machEps < |p 2 j| := thirdOne_finite p h j
  by_cases hi : i = 2
  · subst hi; simp [dehom, hj, h j]
  · simp [dehom, hj, hi, h j]

theorem matOf_flatF {K : Type} (M : Matrix (Fin 3) (Fin 3) K) : matOf (flatF M) = M := by
  ext i j
  fin_cases i <;> fin_cases j <;> rfl

theorem matOf_smul (c : ℝ) (w : Fin 9 → ℝ) : matOf (c • w) = c • matOf w := by
  ext i j; simp [matOf]

theorem det_ne_zero_of_orthL (U : M3) (hU : U.transpose * U = 1) : U.det ≠ 0 := by
  intro h
  have h1 : (U.transpose * U).det = 1 := by rw [hU, Matrix.det_one]
  rw [Matrix.det_mul, Matrix.det_transpose, h] at h1
  norm_num at h1

theorem det_ne_zero_of_orthR (Vh : M3) (hV : Vh * Vh.transpose = 1) : Vh.det ≠ 0 := by
  intro h
  have h1 : (Vh * Vh.transpose).det = 1 := by rw [hV, Matrix.det_one]
  rw [Matrix.det_mul, Matrix.det_transpose, h] at h1
  norm_num at h1

theorem smallest_singular_zero (U : M3) (D : Fin 3 → ℝ) (Vh : M3)
    (hU : U.transpose * U = 1) (hV : Vh * Vh.transpose = 1)
    (hdet : (U * Matrix.diagonal D * Vh).det = 0)
    (hnn : 0 ≤ D 2) (h21 : D 2 ≤ D 1) (h10 : D 1 ≤ D 0) : D 2 = 0 := by
  have hprod : D 0 * D 1 * D 2 = 0 := by
    have h0 := hdet
    rw [Matrix.det_mul, Matrix.det_mul, Matrix.det_diagonal,
      show (∏ i, D i) = D 0 * D 1 * D 2 from Fin.prod_univ_three D] at h0
    rcases mul_eq_zero.mp h0 with h2 | h2
    · rcases mul_eq_zero.mp h2 with h3 | h3
      · exact absurd h3 (det_ne_zero_of_orthL U hU)
      · exact h3
    · exact absurd h2 (det_ne_zero_of_orthR Vh hV)
  by_contra hne
  have h2pos : 0 < D 2 := lt_of_le_of_ne hnn (Ne.symm hne)
  have hD1 : 0 < D 1 := lt_of_lt_of_le h2pos h21
  have hD0 : 0 < D 0 := lt_of_lt_of_le hD1 h10
  have : 0 < D 0 * D 1 * D 2 := by positivity
  linarith

theorem rank2_reduce_of_svd (F : M3) (U : M3) (D : Fin 3 → ℝ) (Vh : M3)
    (hsvd : F = U * Matrix.diagonal D * Vh)
    (hU : U.transpose * U = 1) (hV : Vh * Vh.transpose = 1)
    (hdet : F.det = 0)
    (hnn : 0 ≤ D 2) (h21 : D 2 ≤ D 1) (h10 : D 1 ≤ D 0) :
    rank2_reduce U D Vh = F := by
  have hD2 : D 2 = 0 :=
    smallest_singular_zero U D Vh hU hV (hsvd ▸ hdet) hnn h21 h10
  have hDiag : (![D 0, D 1, 0] : Fin 3 → ℝ) = D := by
    funext k; fin_cases k <;> simp [hD2]
  rw [rank2_reduce, hDiag, hsvd]

theorem sqrtTwo_ne_zero : Real.sqrt 2 ≠ 0 := ne_of_gt sqrtTwo_pos

theorem normT_mul_normTinv {n : ℕ} (p : Matrix (Fin 3) (Fin n) ℝ)
    (h : meandist p ≠ 0) : normT p * normTinv p = 1 := by
  ext i j
  fin_cases i <;> fin_cases j <;>
    simp [normT, normTinv, scaleOf, Matrix.mul_apply, Fin.sum_univ_succ,
      Matrix.one_apply] <;>
    field_simp

theorem normTinv_mul_normT {n : ℕ} (p : Matrix (Fin 3) (Fin n) ℝ)
    (h : meandist p ≠ 0) : normTinv p * normT p = 1 := by
  ext i j
  fin_cases i <;> fin_cases j <;>
    simp [normT, normTinv, scaleOf, Matrix.mul_apply, Fin.sum_univ_succ,
      Matrix.one_apply] <;>
    field_simp <;> ring

theorem normPts_col {n : ℕ} (p : Matrix (Fin 3) (Fin n) ℝ) (j : Fin n) :
    (fun i => normPts p i j) = (normT p).mulVec fun i => dehom p i j := by
  funext i
  simp [normPts, Matrix.mul_apply, Matrix.mulVec, Matrix.dotProduct,
    Fin.sum_univ_three]

theorem normPts_thirdOne {n : ℕ} (p : Matrix (Fin 3) (Fin n) ℝ)
    (h : ∀ j, p 2 j = 1) : ∀ j, normPts p 2 j = 1 := by
  intro j
  rw [normPts, dehom_of_thirdOne p h]
  simp [Matrix.mul_apply, normT, Fin.sum_univ_succ, h j]

theorem constraint_mulVec_flatF {n : ℕ} (x1 x2 : Matrix (Fin 3) (Fin n) ℝ)
    (h1 : ∀ j, x1 2 j = 1) (h2 : ∀ j, x2 2 j = 1) (M : M3) (j : Fin n) :
    (constraint_matrix x1 x2).mulVec (flatF M) j =
      Matrix.dotProduct (fun i => x2 i j) (M.mulVec fun i => x1 i j) := by
  simp only [Matrix.mulVec, Matrix.dotProduct, constraint_matrix, flatF,
    Matrix.of_apply, Fin.sum_univ_succ, Fin.sum_univ_zero,
    Matrix.cons_val_zero, Matrix.cons_val_one, Matrix.head_cons,
    Matrix.cons_val_succ, Fin.succ_zero_eq_one, Fin.succ_one_eq_two]
  rw [h1 j, h2 j]
  ring

/-! ## Claim theorems -/

/-- C10: calling the estimation entry point with a number of point-array
arguments other than one or two does not crash: the
`Wrong number of arguments supplied` raise is caught by the same
`ShapeError` handler as the shape errors, so the call prints that
message and returns no matrix. -/
theorem C10_wrong_arg_count {F : Type} (solver : Canon → Bool → F)
    (args : List (NpArr ℚ)) (normalize : Bool)
    (h1 : args.length ≠ 1) (h2 : args.length ≠ 2) :
    fundamental_matrix solver args normalize =
      (some ErrKind.wrongArgCount.msg, none) := by
  rcases args with _ | ⟨a, _ | ⟨b, _ | ⟨c, rest⟩⟩⟩
  · rfl
  · simp at h1
  · simp at h2
  · rfl

/-- Witness for C10 at the zero-argument and three-argument calls. -/
theorem C10_wrong_arg_count_witness :
    fundamental_matrix (fun _ _ => ()) ([] : List (NpArr ℚ)) true =
      (some ErrKind.wrongArgCount.msg, none) ∧
    fundamental_matrix (fun _ _ => ())
      [(⟨1, 1, fun _ _ => 0⟩ : NpArr ℚ), ⟨1, 1, fun _ _ => 0⟩, ⟨1, 1, fun _ _ => 0⟩]
      false = (some ErrKind.wrongArgCount.msg, none) :=
  ⟨C10_wrong_arg_count _ _ _ (by simp) (by simp),
   C10_wrong_arg_count _ _ _ (by simp) (by simp)⟩

/-- C4: whenever validation detects an error, the entry point prints
that error's message and returns `None`: no 3×3 matrix of any kind (in
particular no identity or zero substitute) is produced, whichever
solver would have run downstream. -/
theorem C4_error_yields_no_matrix {F : Type} (solver : Canon → Bool → F)
    (args : List (NpArr ℚ)) (normalize : Bool) (e : ErrKind)
    (h : process_input_pointpairs args = .error e) :
    fundamental_matrix solver args normalize = (some e.msg, none) := by
  unfold fundamental_matrix
  rw [h]

/-- Witness for C4 at a concrete mismatched-shape input. -/
theorem C4_error_yields_no_matrix_witness :
    process_input_pointpairs
        [(⟨2, 8, fun _ _ => 0⟩ : NpArr ℚ), ⟨3, 8, fun _ _ => 0⟩] =
      .error .shapeMismatch ∧
    fundamental_matrix (fun _ _ => ())
        [(⟨2, 8, fun _ _ => 0⟩ : NpArr ℚ), ⟨3, 8, fun _ _ => 0⟩] true =
      (some ErrKind.shapeMismatch.msg, none) :=
  ⟨rfl, C4_error_yields_no_matrix _ _ _ _ rfl⟩

/-- C5 (amended): the validation boundaries.  Exactly 7 correspondences
(equal shapes, larger dimension 7) fail with the insufficient-points
error; mismatched shapes fail with the shape-mismatch error; a width-5
combined array fails with the invalid-dimensionality error when its
larger dimension is at least 8, while a width-5 combined array with
fewer than 8 points fails with the insufficient-points error, because
the point-count check runs before the width check. -/
theorem C5_validation_boundaries :
    (∀ a b : NpArr ℚ, a.rows = b.rows → a.cols = b.cols →
      max a.rows a.cols = 7 →
      process_input_pointpairs [a, b] = .error .insufficientPoints) ∧
    (∀ a b : NpArr ℚ, ¬(a.rows = b.rows ∧ a.cols = b.cols) →
      process_input_pointpairs [a, b] = .error .shapeMismatch) ∧
    (∀ a : NpArr ℚ, min a.rows a.cols = 5 → 8 ≤ max a.rows a.cols →
      process_input_pointpairs [a] = .error .invalidDimSingle) ∧
    (∀ a : NpArr ℚ, min a.rows a.cols = 5 → max a.rows a.cols < 8 →
      process_input_pointpairs [a] = .error .insufficientPoints) := by
  refine ⟨fun a b hr hc hmax => ?_, fun a b h => ?_, fun a h5 h8 => ?_,
    fun a h5 h8 => ?_⟩
  · simp only [process_input_pointpairs]
    rw [if_neg (by simp [hr, hc])]
    rw [if_pos (show max a.rows a.cols < 8 by omega)]
  · simp only [process_input_pointpairs]
    rw [if_pos h]
  · simp only [process_input_pointpairs]
    rw [if_neg (show ¬(max a.rows a.cols < 8) by omega)]
    rw [if_neg (show ¬(min a.rows a.cols = 4) by omega)]
    rw [if_neg (show ¬(min a.rows a.cols = 6) by omega)]
  · simp only [process_input_pointpairs]
    rw [if_pos (show max a.rows a.cols < 8 by omega)]

/-- Counterexample to C5 as stated: the 5×6 combined array (width 5)
fails with the insufficient-points error, not the claimed
invalid-dimensionality error. -/
theorem C5_validation_boundaries_counterexample :
    process_input_pointpairs [(⟨5, 6, fun _ _ => 0⟩ : NpArr ℚ)] =
      .error .insufficientPoints ∧
    ErrKind.insufficientPoints ≠ ErrKind.invalidDimSingle :=
  ⟨rfl, by decide⟩

/-- Witness for C5 at a 2×7 pair, a mismatched pair, a 5×8 combined
array and a 5×6 combined array. -/
theorem C5_validation_boundaries_witness :
    process_input_pointpairs
        [(⟨2, 7, fun _ _ => 0⟩ : NpArr ℚ), ⟨2, 7, fun _ _ => 0⟩] =
      .error .insufficientPoints ∧
    process_input_pointpairs
        [(⟨2, 8, fun _ _ => 0⟩ : NpArr ℚ), ⟨8, 2, fun _ _ => 0⟩] =
      .error .shapeMismatch ∧
    process_input_pointpairs [(⟨5, 8, fun _ _ => 0⟩ : NpArr ℚ)] =
      .error .invalidDimSingle ∧
    process_input_pointpairs [(⟨5, 7, fun _ _ => 0⟩ : NpArr ℚ)] =
      .error .insufficientPoints :=
  ⟨C5_validation_boundaries.1 _ _ rfl rfl rfl,
   C5_validation_boundaries.2.1 _ _ (by simp),
   C5_validation_boundaries.2.2.1 _ rfl (by norm_num),
   C5_validation_boundaries.2.2.2 _ rfl (by norm_num)⟩

/-- C2 (code bug): on the 3×8 input `aInfW` whose third coordinates are
all 0 (no finite points — the premise of the claim holds, first
conjunct), `normalize2dpts` raises nothing: the only raise site in its
body is the `pts must be 3xN` shape check, which passes, so the call
returns normally (second conjunct).  There is no `DegenerateInput`
guard in the code; numpy instead emits a mean-of-empty-slice warning
and propagates NaN values through the returned transform. -/
theorem C2_no_degenerate_input_guard :
    (∀ j, j < 8 → ¬ machEps < |aInfW.entry 2 j|) ∧
    (normalize2dpts_checked aInfW).isOk = true := by
  constructor
  · intro j hj
    have : aInfW.entry 2 j = 0 := by
      simp [aInfW, NpArr.entry, hj]
    rw [this, abs_zero]
    exact not_lt.mpr machEps_pos.le
  · rfl

/-- C3 (code bug): with the homogeneous 3×8 pair `aMutW` (third
coordinates 2) and `normalize=True`, the caller's left array is mutated
in place: its (0,0) entry is 1 before the call and 1/2 after it
(de-homogenisation wrote through the aliased canonical array). -/
theorem C3_caller_array_mutated :
    ((callerAfter2 aMutW aMutW true).1.entry 0 0 = 1 / 2) ∧
    (aMutW.entry 0 0 = 1) := by
  have h0 : aMutW.entry 0 0 = 1 := by simp [aMutW, NpArr.entry]
  have h2 : aMutW.entry 2 0 = 2 := by simp [aMutW, NpArr.entry]
  constructor
  · rw [callerAfter2]
    rw [if_neg (by simp [aMutW]), if_neg (by simp [aMutW]),
      if_neg (by simp [aMutW]), if_pos (by simp [aMutW]), if_pos rfl,
      if_neg (by simp [aMutW])]
    show dehomE aMutW.entry 0 0 = 1 / 2
    · rw [dehomE, h2, h0]
      norm_num [epsQ]
  · exact h0

/-- Counterexample to C8 as stated: on the homogeneous point (2,4,2)
in both images the code's constraint matrix uses the raw coordinates
(first entry 2·2 = 4), not the de-homogenised ones the claim describes
(first entry 1·1 = 1). -/
theorem C8_constraint_matrix_counterexample :
    constraint_matrix xC8 xC8 ≠ constraint_matrix_claim xC8 xC8 := by
  intro h
  have h00 := congrFun (congrFun h 0) 0
  simp [constraint_matrix, constraint_matrix_claim, xC8] at h00
  norm_num at h00

/-- C8 (amended): row j of the code's constraint matrix is the
outer-product expansion of the raw first and second homogeneous
coordinates; it agrees with the claim's de-homogenised form exactly
when every third coordinate equals 1 (as is the case after Euclidean
ingestion, which appends a row of ones, or after normalisation). -/
theorem C8_constraint_matrix_raw {K : Type} [Field K] {n : ℕ}
    (x1 x2 : Matrix (Fin 3) (Fin n) K)
    (h1 : ∀ j, x1 2 j = 1) (h2 : ∀ j, x2 2 j = 1) :
    constraint_matrix x1 x2 = constraint_matrix_claim x1 x2 := by
  ext j k
  simp [constraint_matrix, constraint_matrix_claim, h1 j, h2 j]

/-- Witness for C8 at the all-third-coordinates-one point (1,2,1). -/
theorem C8_constraint_matrix_raw_witness :
    (∀ j : Fin 1, xOnesC8 2 j = 1) ∧
    constraint_matrix xOnesC8 xOnesC8 = constraint_matrix_claim xOnesC8 xOnesC8 :=
  ⟨fun _ => rfl, C8_constraint_matrix_raw _ _ (fun _ => rfl) (fun _ => rfl)⟩

theorem zip4_map_sum :
    ∀ (n : ℕ) (lp rp : Fin n → ℝ × ℝ) (ll rl : Fin n → ℝ × ℝ × ℝ)
      (g : ((ℝ × ℝ) × (ℝ × ℝ)) × (ℝ × ℝ × ℝ) × (ℝ × ℝ × ℝ) → ℝ),
      ((((List.ofFn lp).zip (List.ofFn rp)).zip
          ((List.ofFn ll).zip (List.ofFn rl))).map g).sum =
        ∑ i, g ((lp i, rp i), (ll i, rl i)) := by
  intro n
  induction n with
  | zero => intro lp rp ll rl g; simp
  | succ m ih =>
    intro lp rp ll rl g
    rw [List.ofFn_succ, List.ofFn_succ, List.ofFn_succ, List.ofFn_succ]
    simp only [List.zip_cons_cons, List.map_cons, List.sum_cons]
    rw [ih (fun i => lp i.succ) (fun i => rp i.succ)
      (fun i => ll i.succ) (fun i => rl i.succ) g, Fin.sum_univ_succ]

/-- C1 (amended): `epipolar_distance` equals the mean over the point
pairs of the sum, over both images, of the squared point-to-line
residual divided by the magnitude `√(a² + b²)` of the line normal —
i.e. the claim's formula with the normal's magnitude, not its square,
in the denominator. -/
theorem C1_epipolar_distance_is_mean (n : ℕ) (lp rp : Fin n → ℝ × ℝ)
    (ll rl : Fin n → ℝ × ℝ × ℝ) :
    epipolar_distance (List.ofFn lp) (List.ofFn rp) (List.ofFn ll) (List.ofFn rl) =
      epipolar_distance_mean n lp rp ll rl := by
  rw [epipolar_distance, epipolar_distance_mean,
    zip4_map_sum n lp rp ll rl
      (fun q => epipolar_term q.1.1 q.2.1 + epipolar_term q.1.2 q.2.2),
    List.length_ofFn]

/-- Counterexample to C1 as stated, on matching epipolar lines: taking
the fundamental matrix `F_C1 = [[0,0,0],[0,0,-2],[0,2,0]]` and the single
correspondence left point (0,1), right point (0,1/2), the lines derived
exactly as in Q1.py lines 150-154 are left line `Fᵀ·x2 = (0,2,-1)` and
right line `F·x1 = (0,-2,2)`; the code computes 1² /√(2²) + 1² /√(2²)
= 1, while the claim's formula (denominator a² + b²) gives 1² / 2² +
1² / 2² = 1/2. -/
theorem C1_epipolar_distance_counterexample :
    epipolar_distance [((0 : ℝ), 1)] [((0 : ℝ), 1 / 2)]
        (epipolar_lines_left F_C1 [((0 : ℝ), 1 / 2)])
        (epipolar_lines_right F_C1 [((0 : ℝ), 1)]) = 1 ∧
    epipolar_distance_claim [((0 : ℝ), 1)] [((0 : ℝ), 1 / 2)]
        (epipolar_lines_left F_C1 [((0 : ℝ), 1 / 2)])
        (epipolar_lines_right F_C1 [((0 : ℝ), 1)]) = 1 / 2 ∧
    ((1 : ℝ) ≠ 1 / 2) := by
  have hll : epipolar_lines_left F_C1 [((0 : ℝ), 1 / 2)] = [((0 : ℝ), 2, -1)] := by
    norm_num [epipolar_lines_left, F_C1, Matrix.mulVec, Matrix.dotProduct,
      Fin.sum_univ_three, Matrix.transpose_apply]
  have hlr : epipolar_lines_right F_C1 [((0 : ℝ), 1)] = [((0 : ℝ), -2, 2)] := by
    norm_num [epipolar_lines_right, F_C1, Matrix.mulVec, Matrix.dotProduct,
      Fin.sum_univ_three]
  have hs : Real.sqrt ((0 : ℝ) ^ 2 + 2 ^ 2) = 2 := by
    rw [show ((0 : ℝ) ^ 2 + 2 ^ 2) = 2 ^ 2 by norm_num,
      Real.sqrt_sq (by norm_num : (0 : ℝ) ≤ 2)]
  have hs' : Real.sqrt ((0 : ℝ) ^ 2 + (-2) ^ 2) = 2 := by
    rw [show ((0 : ℝ) ^ 2 + (-2) ^ 2) = 2 ^ 2 by norm_num,
      Real.sqrt_sq (by norm_num : (0 : ℝ) ≤ 2)]
  rw [hll, hlr]
  refine ⟨?_, ?_, by norm_num⟩
  · rw [epipolar_distance]
    simp only [List.zip_cons_cons, List.zip_nil_right, List.map_cons, List.map_nil,
      List.sum_cons, List.sum_nil, List.length_cons, List.length_nil]
    rw [epipolar_term, epipolar_term, hs, hs']
    norm_num
  · rw [epipolar_distance_claim]
    simp only [List.zip_cons_cons, List.zip_nil_right, List.map_cons, List.map_nil,
      List.sum_cons, List.sum_nil, List.length_cons, List.length_nil]
    rw [epipolar_term_claim, epipolar_term_claim]
    norm_num

theorem rank2_reduce_rank_le_two (U : M3) (D : Fin 3 → ℝ) (Vh : M3) :
    (rank2_reduce U D Vh).rank ≤ 2 := by
  have hfac : Matrix.diagonal ![D 0, D 1, 0] =
      (Matrix.of ![![D 0, 0], ![0, D 1], ![0, 0]] : Matrix (Fin 3) (Fin 2) ℝ) *
        (Matrix.of ![![1, 0, 0], ![0, 1, 0]] : Matrix (Fin 2) (Fin 3) ℝ) := by
    ext i j
    fin_cases i <;> fin_cases j <;>
      simp [Matrix.mul_apply, Fin.sum_univ_succ, Matrix.diagonal]
  rw [rank2_reduce, hfac, ← Matrix.mul_assoc, Matrix.mul_assoc _ _ Vh]
  refine le_trans (Matrix.rank_mul_le_left _ _) (le_trans (Matrix.rank_le_card_width _) ?_)
  simp

/-- C6: whatever factors `(U, D, Vh)` the SVD of `F₀` returns, the
solver's output is by construction `U · diag(D₀, D₁, 0) · Vh`; its
determinant is 0 and its rank is at most 2 (over the reals, det = 0
and rank ≤ 2 are both equivalent to the smallest singular value being
exactly 0 for a 3×3 matrix), and the rank bound also survives the
optional denormalisation step, so every matrix the solver can return
is rank-deficient. -/
theorem C6_rank_two_enforced (normalize : Bool) (T1 T2 U : M3)
    (D : Fin 3 → ℝ) (Vh : M3) :
    rank2_reduce U D Vh = U * Matrix.diagonal ![D 0, D 1, 0] * Vh ∧
    (rank2_reduce U D Vh).det = 0 ∧
    (eight_point_algorithm normalize T1 T2 U D Vh).rank ≤ 2 := by
  refine ⟨rfl, ?_, ?_⟩
  · rw [rank2_reduce, Matrix.det_mul, Matrix.det_mul, Matrix.det_diagonal,
      Fin.prod_univ_three]
    simp
  · cases normalize with
    | false => simpa [eight_point_algorithm] using rank2_reduce_rank_le_two U D Vh
    | true =>
      simp only [eight_point_algorithm, if_true]
      calc (T2.transpose * rank2_reduce U D Vh * T1).rank
          ≤ (T2.transpose * rank2_reduce U D Vh).rank := Matrix.rank_mul_le_left _ _
        _ ≤ (rank2_reduce U D Vh).rank := Matrix.rank_mul_le_right _ _
        _ ≤ 2 := rank2_reduce_rank_le_two U D Vh

/-- C7 (amended): for every 3×N point set whose points are all finite
and are not all at one location (the mean centred distance is
positive), the normalised points have centroid (0,0) and mean distance
√2 from the origin, and the returned transform is the similarity with
uniform scale √2 / meandist and translation −scale·centroid.  The
positivity hypothesis is what the claim is missing: when all points
coincide, `meandist` is 0 and the scale √2/0 is a division by zero
(numpy: `inf`, with NaN in the transform). -/
theorem C7_normalizer_output {n : ℕ} (p : Matrix (Fin 3) (Fin n) ℝ)
    (hfin : ∀ j, machEps < |p 2 j|) (hmd : 0 < meandist p) :
    ((∑ j, normPts p 0 j) / n = 0 ∧ (∑ j, normPts p 1 j) / n = 0) ∧
    (∑ j, Real.sqrt ((normPts p 0 j) ^ 2 + (normPts p 1 j) ^ 2)) / n = Real.sqrt 2 ∧
    normalize2dpts p =
      (normPts p,
       ![![scaleOf p, 0, -(scaleOf p) * centroid0 p],
         ![0, scaleOf p, -(scaleOf p) * centroid1 p],
         ![0, 0, 1]]) := by
  have huniv : finIdx p = Finset.univ := finIdx_univ p hfin
  have hn : n ≠ 0 := by
    rintro rfl
    rw [meandist, Finset.eq_empty_of_isEmpty (finIdx p)] at hmd
    simp at hmd
  have hne : (n : ℝ) ≠ 0 := Nat.cast_ne_zero.mpr hn
  have hd2 : ∀ j, dehom p 2 j = 1 := fun j => by simp [dehom, hfin j]
  have h0 : ∀ j, normPts p 0 j = scaleOf p * (dehom p 0 j - centroid0 p) := by
    intro j
    rw [normPts, Matrix.mul_apply, Fin.sum_univ_three]
    simp [normT, hd2 j]
    ring
  have h1 : ∀ j, normPts p 1 j = scaleOf p * (dehom p 1 j - centroid1 p) := by
    intro j
    rw [normPts, Matrix.mul_apply, Fin.sum_univ_three]
    simp [normT, hd2 j]
    ring
  have hC0 : centroid0 p = (∑ j, dehom p 0 j) / n := by
    rw [centroid0, huniv, Finset.card_univ, Fintype.card_fin]
  have hC1 : centroid1 p = (∑ j, dehom p 1 j) / n := by
    rw [centroid1, huniv, Finset.card_univ, Fintype.card_fin]
  have hmd_eq : meandist p =
      (∑ j, Real.sqrt ((dehom p 0 j - centroid0 p) ^ 2 +
        (dehom p 1 j - centroid1 p) ^ 2)) / n := by
    rw [meandist, huniv, Finset.card_univ, Fintype.card_fin]
  have hsum0 : ∑ j, (dehom p 0 j - centroid0 p) = 0 := by
    rw [Finset.sum_sub_distrib, Finset.sum_const, Finset.card_univ, Fintype.card_fin,
      hC0, nsmul_eq_mul, mul_div_cancel₀ _ hne, sub_self]
  have hsum1 : ∑ j, (dehom p 1 j - centroid1 p) = 0 := by
    rw [Finset.sum_sub_distrib, Finset.sum_const, Finset.card_univ, Fintype.card_fin,
      hC1, nsmul_eq_mul, mul_div_cancel₀ _ hne, sub_self]
  refine ⟨⟨?_, ?_⟩, ?_, rfl⟩
  · simp only [h0]
    rw [← Finset.mul_sum, hsum0, mul_zero, zero_div]
  · simp only [h1]
    rw [← Finset.mul_sum, hsum1, mul_zero, zero_div]
  · have hs : 0 ≤ scaleOf p := div_nonneg (Real.sqrt_nonneg 2) hmd.le
    have hterm : ∀ j,
        Real.sqrt ((normPts p 0 j) ^ 2 + (normPts p 1 j) ^ 2) =
          scaleOf p * Real.sqrt ((dehom p 0 j - centroid0 p) ^ 2 +
            (dehom p 1 j - centroid1 p) ^ 2) := by
      intro j
      rw [h0 j, h1 j, mul_pow, mul_pow, ← mul_add,
        Real.sqrt_mul (sq_nonneg _), Real.sqrt_sq hs]
    simp only [hterm]
    rw [← Finset.mul_sum, mul_div_assoc, ← hmd_eq, scaleOf,
      div_mul_cancel₀ _ (ne_of_gt hmd)]

/-- Witness for C7 at the eight finite points (±1,0), (0,±1) doubled:
mean centred distance 1, so the transformed centroid is (0,0), the
transformed mean distance is √2, and the transform scale is √2. -/
theorem C7_normalizer_output_witness :
    0 < meandist p8W ∧
    (((∑ j, normPts p8W 0 j) / ((8 : ℕ) : ℝ) = 0 ∧
      (∑ j, normPts p8W 1 j) / ((8 : ℕ) : ℝ) = 0) ∧
     (∑ j, Real.sqrt ((normPts p8W 0 j) ^ 2 + (normPts p8W 1 j) ^ 2)) /
        ((8 : ℕ) : ℝ) = Real.sqrt 2 ∧
     normalize2dpts p8W =
       (normPts p8W,
        ![![scaleOf p8W, 0, -(scaleOf p8W) * centroid0 p8W],
          ![0, scaleOf p8W, -(scaleOf p8W) * centroid1 p8W],
          ![0, 0, 1]])) := by
  have h3 : ∀ j, p8W 2 j = 1 := by intro j; fin_cases j <;> rfl
  have hfin := thirdOne_finite p8W h3
  have huniv : finIdx p8W = Finset.univ := finIdx_univ p8W hfin
  have hdeh : dehom p8W = p8W := dehom_of_thirdOne p8W h3
  have hc0 : centroid0 p8W = 0 := by
    rw [centroid0, huniv, hdeh, Finset.card_univ, Fintype.card_fin,
      Fin.sum_univ_eight]
    norm_num [p8W, show ((![1, -1, 0, 0, 1, -1, 0, 0] : Fin 8 → ℝ) 5) = -1 from rfl,
      show ((![1, -1, 0, 0, 1, -1, 0, 0] : Fin 8 → ℝ) 6) = 0 from rfl,
      show ((![1, -1, 0, 0, 1, -1, 0, 0] : Fin 8 → ℝ) 7) = 0 from rfl,
      show ((![0, 0, 1, -1, 0, 0, 1, -1] : Fin 8 → ℝ) 5) = 0 from rfl,
      show ((![0, 0, 1, -1, 0, 0, 1, -1] : Fin 8 → ℝ) 6) = 1 from rfl,
      show ((![0, 0, 1, -1, 0, 0, 1, -1] : Fin 8 → ℝ) 7) = -1 from rfl]
  have hc1 : centroid1 p8W = 0 := by
    rw [centroid1, huniv, hdeh, Finset.card_univ, Fintype.card_fin,
      Fin.sum_univ_eight]
    norm_num [p8W, show ((![1, -1, 0, 0, 1, -1, 0, 0] : Fin 8 → ℝ) 5) = -1 from rfl,
      show ((![1, -1, 0, 0, 1, -1, 0, 0] : Fin 8 → ℝ) 6) = 0 from rfl,
      show ((![1, -1, 0, 0, 1, -1, 0, 0] : Fin 8 → ℝ) 7) = 0 from rfl,
      show ((![0, 0, 1, -1, 0, 0, 1, -1] : Fin 8 → ℝ) 5) = 0 from rfl,
      show ((![0, 0, 1, -1, 0, 0, 1, -1] : Fin 8 → ℝ) 6) = 1 from rfl,
      show ((![0, 0, 1, -1, 0, 0, 1, -1] : Fin 8 → ℝ) 7) = -1 from rfl]
  have hmd : meandist p8W = 1 := by
    rw [meandist, huniv, hdeh, hc0, hc1, Finset.card_univ, Fintype.card_fin,
      Fin.sum_univ_eight]
    norm_num [p8W, Real.sqrt_one, show ((![1, -1, 0, 0, 1, -1, 0, 0] : Fin 8 → ℝ) 5) = -1 from rfl,
      show ((![1, -1, 0, 0, 1, -1, 0, 0] : Fin 8 → ℝ) 6) = 0 from rfl,
      show ((![1, -1, 0, 0, 1, -1, 0, 0] : Fin 8 → ℝ) 7) = 0 from rfl,
      show ((![0, 0, 1, -1, 0, 0, 1, -1] : Fin 8 → ℝ) 5) = 0 from rfl,
      show ((![0, 0, 1, -1, 0, 0, 1, -1] : Fin 8 → ℝ) 6) = 1 from rfl,
      show ((![0, 0, 1, -1, 0, 0, 1, -1] : Fin 8 → ℝ) 7) = -1 from rfl]
  have hpos : 0 < meandist p8W := by rw [hmd]; norm_num
  exact ⟨hpos, C7_normalizer_output p8W hfin hpos⟩

/-- Counterexample to C7 as stated: eight copies of the finite point
(1,1).  All points are finite (first conjunct), yet the mean centred
distance is 0 (second conjunct), the scale is √2/0 — in the real
embedding Lean's convention gives 0, numpy produces `inf` and then NaN
entries — and the transformed mean distance is 0, not the claimed √2
(third conjunct; under IEEE semantics it is NaN, likewise ≠ √2). -/
theorem C7_normalizer_counterexample :
    (∀ j, machEps < |pDegW 2 j|) ∧ meandist pDegW = 0 ∧
    (∑ j, Real.sqrt ((normPts pDegW 0 j) ^ 2 + (normPts pDegW 1 j) ^ 2)) /
      ((8 : ℕ) : ℝ) ≠ Real.sqrt 2 := by
  have h3 : ∀ j, pDegW 2 j = 1 := fun j => rfl
  have hfin := thirdOne_finite pDegW h3
  have huniv : finIdx pDegW = Finset.univ := finIdx_univ pDegW hfin
  have hdeh : dehom pDegW = pDegW := dehom_of_thirdOne pDegW h3
  have hc0 : centroid0 pDegW = 1 := by
    rw [centroid0, huniv, hdeh, Finset.card_univ, Fintype.card_fin,
      Fin.sum_univ_eight]
    norm_num [pDegW]
  have hc1 : centroid1 pDegW = 1 := by
    rw [centroid1, huniv, hdeh, Finset.card_univ, Fintype.card_fin,
      Fin.sum_univ_eight]
    norm_num [pDegW]
  have hmd : meandist pDegW = 0 := by
    rw [meandist, huniv, hdeh, hc0, hc1, Finset.card_univ, Fintype.card_fin,
      Fin.sum_univ_eight]
    norm_num [pDegW]
  have hscale : scaleOf pDegW = 0 := by rw [scaleOf, hmd, div_zero]
  have hnp0 : ∀ j, normPts pDegW 0 j = 0 := by
    intro j
    rw [normPts, Matrix.mul_apply, Fin.sum_univ_three]
    simp [normT, hscale]
  have hnp1 : ∀ j, normPts pDegW 1 j = 0 := by
    intro j
    rw [normPts, Matrix.mul_apply, Fin.sum_univ_three]
    simp [normT, hscale]
  refine ⟨hfin, hmd, ?_⟩
  simp only [hnp0, hnp1]
  norm_num
  exact ne_of_lt sqrtTwo_pos

/-- C9: round trip across normalisation.  For a noiseless,
well-conditioned correspondence set (hypotheses: every third
coordinate 1; positive mean centred distances; an exact rank-deficient
`Fstar` fitting all correspondences; for each of the two constraint
matrices, the vector the solver reads from the external SVD is a
nonzero null vector and the null space is one-dimensional, spanned by
the flattened true matrix — the guarantees SVD provides on such data;
and valid SVD factors of each extracted F₀), the normalised estimate
after denormalisation `T2ᵀ·F·T1` equals the direct unnormalised
estimate up to a nonzero scalar; with normalisation disabled the
solver's rank-2-reduced output is returned unchanged; and (last two
conjuncts, consistency of the noiseless hypotheses) the flattened true
matrix is indeed a null vector of the direct constraint system, as is
its transform `(T2⁻¹)ᵀ·Fstar·T1⁻¹` of the normalised one. -/
theorem C9_round_trip_up_to_scale {n : ℕ}
    (x1 x2 : Matrix (Fin 3) (Fin n) ℝ) (hn : 8 ≤ n)
    (hw1 : ∀ j, x1 2 j = 1) (hw2 : ∀ j, x2 2 j = 1)
    (hmd1 : 0 < meandist x1) (hmd2 : 0 < meandist x2)
    (Fstar : M3) (hFdet : Fstar.det = 0)
    (hexact : ∀ j,
      Matrix.dotProduct (fun i => x2 i j) (Fstar.mulVec fun i => x1 i j) = 0)
    (VhA : Matrix (Fin 9) (Fin 9) ℝ)
    (hAnz : (fun k => VhA 8 k) ≠ (0 : Fin 9 → ℝ))
    (hAnull : (constraint_matrix x1 x2).mulVec (fun k => VhA 8 k) = 0)
    (hgenA : ∀ w : Fin 9 → ℝ, (constraint_matrix x1 x2).mulVec w = 0 →
      ∃ c : ℝ, w = c • flatF Fstar)
    (U1 : M3) (D1 : Fin 3 → ℝ) (Vh1 : M3)
    (hsvd1 : extractF0 VhA = U1 * Matrix.diagonal D1 * Vh1)
    (hU1 : U1.transpose * U1 = 1) (hV1 : Vh1 * Vh1.transpose = 1)
    (hD1nn : 0 ≤ D1 2) (hD121 : D1 2 ≤ D1 1) (hD110 : D1 1 ≤ D1 0)
    (VhB : Matrix (Fin 9) (Fin 9) ℝ)
    (hBnz : (fun k => VhB 8 k) ≠ (0 : Fin 9 → ℝ))
    (hBnull : (constraint_matrix (normPts x1) (normPts x2)).mulVec
      (fun k => VhB 8 k) = 0)
    (hgenB : ∀ w : Fin 9 → ℝ,
      (constraint_matrix (normPts x1) (normPts x2)).mulVec w = 0 →
      ∃ c : ℝ, w = c • flatF ((normTinv x2).transpose * Fstar * normTinv x1))
    (U2 : M3) (D2 : Fin 3 → ℝ) (Vh2 : M3)
    (hsvd2 : extractF0 VhB = U2 * Matrix.diagonal D2 * Vh2)
    (hU2 : U2.transpose * U2 = 1) (hV2 : Vh2 * Vh2.transpose = 1)
    (hD2nn : 0 ≤ D2 2) (hD221 : D2 2 ≤ D2 1) (hD210 : D2 1 ≤ D2 0) :
    (∃ c : ℝ, c ≠ 0 ∧
      eight_point_algorithm true (normT x1) (normT x2) U2 D2 Vh2 =
        c • eight_point_algorithm false (normT x1) (normT x2) U1 D1 Vh1) ∧
    (∀ (T1 T2 U : M3) (D : Fin 3 → ℝ) (Vh : M3),
      eight_point_algorithm false T1 T2 U D Vh = rank2_reduce U D Vh) ∧
    (constraint_matrix x1 x2).mulVec (flatF Fstar) = 0 ∧
    (constraint_matrix (normPts x1) (normPts x2)).mulVec
      (flatF ((normTinv x2).transpose * Fstar * normTinv x1)) = 0 := by
  obtain ⟨c, hc⟩ := hgenA _ hAnull
  have hcne : c ≠ 0 := by
    rintro rfl
    rw [zero_smul] at hc
    exact hAnz hc
  have hF0A : extractF0 VhA = c • Fstar := by
    rw [show extractF0 VhA = matOf (fun k => VhA 8 k) from rfl, hc,
      matOf_smul, matOf_flatF]
  have hdetA : (extractF0 VhA).det = 0 := by
    rw [hF0A, Matrix.det_smul, hFdet, mul_zero]
  have hFd : rank2_reduce U1 D1 Vh1 = c • Fstar := by
    rw [rank2_reduce_of_svd (extractF0 VhA) U1 D1 Vh1 hsvd1 hU1 hV1 hdetA
      hD1nn hD121 hD110, hF0A]
  have hT1i : normTinv x1 * normT x1 = 1 := normTinv_mul_normT x1 (ne_of_gt hmd1)
  have hT2i : normTinv x2 * normT x2 = 1 := normTinv_mul_normT x2 (ne_of_gt hmd2)
  have hGdet : ((normTinv x2).transpose * Fstar * normTinv x1).det = 0 := by
    rw [Matrix.det_mul, Matrix.det_mul, hFdet, mul_zero, zero_mul]
  have hrecover : (normT x2).transpose *
      ((normTinv x2).transpose * Fstar * normTinv x1) * normT x1 = Fstar := by
    have e1 : (normT x2).transpose * (normTinv x2).transpose = 1 := by
      rw [← Matrix.transpose_mul, hT2i, Matrix.transpose_one]
    rw [show (normT x2).transpose *
        ((normTinv x2).transpose * Fstar * normTinv x1) * normT x1 =
        ((normT x2).transpose * (normTinv x2).transpose) * Fstar *
          (normTinv x1 * normT x1) by simp only [Matrix.mul_assoc],
      e1, hT1i, Matrix.one_mul, Matrix.mul_one]
  obtain ⟨c2, hc2⟩ := hgenB _ hBnull
  have hc2ne : c2 ≠ 0 := by
    rintro rfl
    rw [zero_smul] at hc2
    exact hBnz hc2
  have hF0B : extractF0 VhB = c2 • ((normTinv x2).transpose * Fstar * normTinv x1) := by
    rw [show extractF0 VhB = matOf (fun k => VhB 8 k) from rfl, hc2,
      matOf_smul, matOf_flatF]
  have hdetB : (extractF0 VhB).det = 0 := by
    rw [hF0B, Matrix.det_smul, hGdet, mul_zero]
  have hFn : rank2_reduce U2 D2 Vh2 =
      c2 • ((normTinv x2).transpose * Fstar * normTinv x1) := by
    rw [rank2_reduce_of_svd (extractF0 VhB) U2 D2 Vh2 hsvd2 hU2 hV2 hdetB
      hD2nn hD221 hD210, hF0B]
  refine ⟨⟨c2 / c, div_ne_zero hc2ne hcne, ?_⟩, fun T1 T2 U D Vh => rfl,
    ?_, ?_⟩
  · show (normT x2).transpose * rank2_reduce U2 D2 Vh2 * normT x1 =
      (c2 / c) • rank2_reduce U1 D1 Vh1
    rw [hFn, hFd, Matrix.mul_smul, Matrix.smul_mul, hrecover, smul_smul,
      div_mul_cancel₀ c2 hcne]
  · funext j
    rw [constraint_mulVec_flatF x1 x2 hw1 hw2 Fstar j]
    exact hexact j
  · funext j
    rw [constraint_mulVec_flatF (normPts x1) (normPts x2)
      (normPts_thirdOne x1 hw1) (normPts_thirdOne x2 hw2) _ j]
    rw [normPts_col x1 j, normPts_col x2 j, dehom_of_thirdOne x1 hw1,
      dehom_of_thirdOne x2 hw2, Matrix.mulVec_mulVec]
    have hGT1 : (normTinv x2).transpose * Fstar * normTinv x1 * normT x1 =
        (normTinv x2).transpose * Fstar := by
      rw [show (normTinv x2).transpose * Fstar * normTinv x1 * normT x1 =
        (normTinv x2).transpose * Fstar * (normTinv x1 * normT x1) by
          simp only [Matrix.mul_assoc], hT1i, Matrix.mul_one]
    rw [hGT1, ← Matrix.mulVec_mulVec, Matrix.dotProduct_mulVec,
      Matrix.vecMul_transpose, Matrix.mulVec_mulVec, hT2i, Matrix.one_mulVec]
    exact hexact j

theorem sum_univ_nine {M : Type} [AddCommMonoid M] (f : Fin 9 → M) :
    ∑ i, f i = f 0 + f 1 + f 2 + f 3 + f 4 + f 5 + f 6 + f 7 + f 8 := by
  rw [Fin.sum_univ_castSucc, Fin.sum_univ_eight]
  rfl

theorem constraint_mulVec_apply {n : ℕ} (x1 x2 : Matrix (Fin 3) (Fin n) ℝ)
    (w : Fin 9 → ℝ) (j : Fin n) :
    (constraint_matrix x1 x2).mulVec w j =
      x2 0 j * x1 0 j * w 0 + x2 0 j * x1 1 j * w 1 + x2 0 j * w 2 +
      x2 1 j * x1 0 j * w 3 + x2 1 j * x1 1 j * w 4 + x2 1 j * w 5 +
      x1 0 j * w 6 + x1 1 j * w 7 + w 8 := by
  rw [show (constraint_matrix x1 x2).mulVec w j =
      ∑ k, constraint_matrix x1 x2 j k * w k from rfl, sum_univ_nine]
  show x2 0 j * x1 0 j * w 0 + x2 0 j * x1 1 j * w 1 + x2 0 j * w 2 +
      x2 1 j * x1 0 j * w 3 + x2 1 j * x1 1 j * w 4 + x2 1 j * w 5 +
      x1 0 j * w 6 + x1 1 j * w 7 + 1 * w 8 = _
  ring

theorem normPts_row0 {n : ℕ} (p : Matrix (Fin 3) (Fin n) ℝ)
    (hfin : ∀ j, machEps < |p 2 j|) (j : Fin n) :
    normPts p 0 j = scaleOf p * (dehom p 0 j - centroid0 p) := by
  have hd2 : dehom p 2 j = 1 := by simp [dehom, hfin j]
  rw [normPts, Matrix.mul_apply, Fin.sum_univ_three]
  simp [normT, hd2]
  ring

theorem normPts_row1 {n : ℕ} (p : Matrix (Fin 3) (Fin n) ℝ)
    (hfin : ∀ j, machEps < |p 2 j|) (j : Fin n) :
    normPts p 1 j = scaleOf p * (dehom p 1 j - centroid1 p) := by
  have hd2 : dehom p 2 j = 1 := by simp [dehom, hfin j]
  rw [normPts, Matrix.mul_apply, Fin.sum_univ_three]
  simp [normT, hd2]
  ring

theorem sqrt_fifty : Real.sqrt 50 = 5 * Real.sqrt 2 := by
  rw [show (50 : ℝ) = 5 ^ 2 * 2 by norm_num,
    Real.sqrt_mul (by positivity), Real.sqrt_sq (by norm_num : (0 : ℝ) ≤ 5)]

theorem sqrt_ninety_eight : Real.sqrt 98 = 7 * Real.sqrt 2 := by
  rw [show (98 : ℝ) = 7 ^ 2 * 2 by norm_num,
    Real.sqrt_mul (by positivity), Real.sqrt_sq (by norm_num : (0 : ℝ) ≤ 7)]

theorem x1W_thirdOne : ∀ j, x1W 2 j = 1 := by
  intro j; fin_cases j <;> rfl

theorem x2W_thirdOne : ∀ j, x2W 2 j = 1 := by
  intro j; fin_cases j <;> rfl

theorem x1W_c0 : centroid0 x1W = 0 := by
  rw [centroid0, finIdx_univ x1W (thirdOne_finite x1W x1W_thirdOne),
    dehom_of_thirdOne x1W x1W_thirdOne, Finset.card_univ, Fintype.card_fin,
    Fin.sum_univ_eight]
  show ((1 : ℝ) + 7 + 5 + -1 + 1 + -1 + -7 + -5) / ((8 : ℕ) : ℝ) = 0
  norm_num

theorem x1W_c1 : centroid1 x1W = 0 := by
  rw [centroid1, finIdx_univ x1W (thirdOne_finite x1W x1W_thirdOne),
    dehom_of_thirdOne x1W x1W_thirdOne, Finset.card_univ, Fintype.card_fin,
    Fin.sum_univ_eight]
  show ((7 : ℝ) + 1 + 5 + 7 + -7 + -7 + -1 + -5) / ((8 : ℕ) : ℝ) = 0
  norm_num

theorem x2W_c0 : centroid0 x2W = 0 := by
  rw [centroid0, finIdx_univ x2W (thirdOne_finite x2W x2W_thirdOne),
    dehom_of_thirdOne x2W x2W_thirdOne, Finset.card_univ, Fintype.card_fin,
    Fin.sum_univ_eight]
  show ((1 : ℝ) + 1 + 5 + 1 + 1 + -7 + -7 + 5) / ((8 : ℕ) : ℝ) = 0
  norm_num

theorem x2W_c1 : centroid1 x2W = 0 := by
  rw [centroid1, finIdx_univ x2W (thirdOne_finite x2W x2W_thirdOne),
    dehom_of_thirdOne x2W x2W_thirdOne, Finset.card_univ, Fintype.card_fin,
    Fin.sum_univ_eight]
  show ((7 : ℝ) + 1 + 5 + 7 + -7 + -7 + -1 + -5) / ((8 : ℕ) : ℝ) = 0
  norm_num

theorem x1W_md : meandist x1W = 5 * Real.sqrt 2 := by
  rw [meandist, finIdx_univ x1W (thirdOne_finite x1W x1W_thirdOne),
    dehom_of_thirdOne x1W x1W_thirdOne, x1W_c0, x1W_c1, Finset.card_univ,
    Fintype.card_fin, Fin.sum_univ_eight]
  show (Real.sqrt (((1 : ℝ) - 0) ^ 2 + ((7 : ℝ) - 0) ^ 2) +
      Real.sqrt (((7 : ℝ) - 0) ^ 2 + ((1 : ℝ) - 0) ^ 2) +
      Real.sqrt (((5 : ℝ) - 0) ^ 2 + ((5 : ℝ) - 0) ^ 2) +
      Real.sqrt (((-1 : ℝ) - 0) ^ 2 + ((7 : ℝ) - 0) ^ 2) +
      Real.sqrt (((1 : ℝ) - 0) ^ 2 + ((-7 : ℝ) - 0) ^ 2) +
      Real.sqrt (((-1 : ℝ) - 0) ^ 2 + ((-7 : ℝ) - 0) ^ 2) +
      Real.sqrt (((-7 : ℝ) - 0) ^ 2 + ((-1 : ℝ) - 0) ^ 2) +
      Real.sqrt (((-5 : ℝ) - 0) ^ 2 + ((-5 : ℝ) - 0) ^ 2)) / ((8 : ℕ) : ℝ) =
      5 * Real.sqrt 2
  rw [show (((1 : ℝ) - 0) ^ 2 + ((7 : ℝ) - 0) ^ 2) = 50 by norm_num,
    show (((7 : ℝ) - 0) ^ 2 + ((1 : ℝ) - 0) ^ 2) = 50 by norm_num,
    show (((5 : ℝ) - 0) ^ 2 + ((5 : ℝ) - 0) ^ 2) = 50 by norm_num,
    show (((-1 : ℝ) - 0) ^ 2 + ((7 : ℝ) - 0) ^ 2) = 50 by norm_num,
    show (((1 : ℝ) - 0) ^ 2 + ((-7 : ℝ) - 0) ^ 2) = 50 by norm_num,
    show (((-1 : ℝ) - 0) ^ 2 + ((-7 : ℝ) - 0) ^ 2) = 50 by norm_num,
    show (((-7 : ℝ) - 0) ^ 2 + ((-1 : ℝ) - 0) ^ 2) = 50 by norm_num,
    show (((-5 : ℝ) - 0) ^ 2 + ((-5 : ℝ) - 0) ^ 2) = 50 by norm_num,
    sqrt_fifty]
  push_cast
  ring

theorem x2W_md : meandist x2W = 19 / 4 * Real.sqrt 2 := by
  rw [meandist, finIdx_univ x2W (thirdOne_finite x2W x2W_thirdOne),
    dehom_of_thirdOne x2W x2W_thirdOne, x2W_c0, x2W_c1, Finset.card_univ,
    Fintype.card_fin, Fin.sum_univ_eight]
  show (Real.sqrt (((1 : ℝ) - 0) ^ 2 + ((7 : ℝ) - 0) ^ 2) +
      Real.sqrt (((1 : ℝ) - 0) ^ 2 + ((1 : ℝ) - 0) ^ 2) +
      Real.sqrt (((5 : ℝ) - 0) ^ 2 + ((5 : ℝ) - 0) ^ 2) +
      Real.sqrt (((1 : ℝ) - 0) ^ 2 + ((7 : ℝ) - 0) ^ 2) +
      Real.sqrt (((1 : ℝ) - 0) ^ 2 + ((-7 : ℝ) - 0) ^ 2) +
      Real.sqrt (((-7 : ℝ) - 0) ^ 2 + ((-7 : ℝ) - 0) ^ 2) +
      Real.sqrt (((-7 : ℝ) - 0) ^ 2 + ((-1 : ℝ) - 0) ^ 2) +
      Real.sqrt (((5 : ℝ) - 0) ^ 2 + ((-5 : ℝ) - 0) ^ 2)) / ((8 : ℕ) : ℝ) =
      19 / 4 * Real.sqrt 2
  rw [show (((1 : ℝ) - 0) ^ 2 + ((7 : ℝ) - 0) ^ 2) = 50 by norm_num,
    show (((1 : ℝ) - 0) ^ 2 + ((1 : ℝ) - 0) ^ 2) = 2 by norm_num,
    show (((5 : ℝ) - 0) ^ 2 + ((5 : ℝ) - 0) ^ 2) = 50 by norm_num,
    show (((1 : ℝ) - 0) ^ 2 + ((-7 : ℝ) - 0) ^ 2) = 50 by norm_num,
    show (((-7 : ℝ) - 0) ^ 2 + ((-7 : ℝ) - 0) ^ 2) = 98 by norm_num,
    show (((-7 : ℝ) - 0) ^ 2 + ((-1 : ℝ) - 0) ^ 2) = 50 by norm_num,
    show (((5 : ℝ) - 0) ^ 2 + ((-5 : ℝ) - 0) ^ 2) = 50 by norm_num,
    sqrt_fifty, sqrt_ninety_eight]
  push_cast
  ring


theorem x1W_md_pos : 0 < meandist x1W := by
  rw [x1W_md]; positivity

theorem x2W_md_pos : 0 < meandist x2W := by
  rw [x2W_md]; positivity

theorem x1W_scale : scaleOf x1W = 1 / 5 := by
  rw [scaleOf, x1W_md]
  rw [show (5 : ℝ) * Real.sqrt 2 = Real.sqrt 2 * 5 by ring, ← div_div,
    div_self sqrtTwo_ne_zero]

theorem x2W_scale : scaleOf x2W = 4 / 19 := by
  rw [scaleOf, x2W_md]
  rw [show (19 : ℝ) / 4 * Real.sqrt 2 = Real.sqrt 2 * (19 / 4) by ring, ← div_div,
    div_self sqrtTwo_ne_zero]
  norm_num

theorem x1W_Tinv : normTinv x1W = ![![5, 0, 0], ![0, 5, 0], ![0, 0, 1]] := by
  rw [normTinv, x1W_md, x1W_c0, x1W_c1,
    show (5 : ℝ) * Real.sqrt 2 / Real.sqrt 2 = 5 by
      rw [mul_div_assoc, div_self sqrtTwo_ne_zero, mul_one]]

theorem x2W_Tinv : normTinv x2W = ![![19 / 4, 0, 0], ![0, 19 / 4, 0], ![0, 0, 1]] := by
  rw [normTinv, x2W_md, x2W_c0, x2W_c1,
    show (19 : ℝ) / 4 * Real.sqrt 2 / Real.sqrt 2 = 19 / 4 by
      rw [mul_div_assoc, div_self sqrtTwo_ne_zero, mul_one]]

theorem GW_eq : (normTinv x2W).transpose * FstarW * normTinv x1W = GstarW := by
  rw [x1W_Tinv, x2W_Tinv]
  ext i j
  fin_cases i <;> fin_cases j <;>
    norm_num [Matrix.mul_apply, Matrix.transpose_apply, Fin.sum_univ_three,
      FstarW, GstarW, Matrix.vecHead, Matrix.vecTail]

theorem FstarW_det : FstarW.det = 0 := by
  norm_num [Matrix.det_fin_three, FstarW]

theorem x1W_row1_eq : ∀ j, x1W 1 j = x2W 1 j := by
  intro j
  simp only [x1W, x2W, Matrix.of_apply, Matrix.cons_val_one, Matrix.head_cons]

theorem W_exact : ∀ j, Matrix.dotProduct (fun i => x2W i j)
    (FstarW.mulVec fun i => x1W i j) = 0 := by
  intro j
  simp only [Matrix.dotProduct, Matrix.mulVec, Fin.sum_univ_three, FstarW,
    Matrix.of_apply, Matrix.cons_val_zero, Matrix.cons_val_one,
    Matrix.head_cons, Matrix.cons_val_two, Matrix.vecTail, Matrix.vecHead,
    Function.comp_apply, Fin.succ_zero_eq_one]
  rw [x1W_thirdOne j, x2W_thirdOne j, x1W_row1_eq j]
  ring

theorem x1W_np0 : ∀ j, normPts x1W 0 j = 1 / 5 * x1W 0 j := by
  intro j
  rw [normPts_row0 x1W (thirdOne_finite x1W x1W_thirdOne) j, x1W_scale, x1W_c0,
    dehom_of_thirdOne x1W x1W_thirdOne]
  ring

theorem x1W_np1 : ∀ j, normPts x1W 1 j = 1 / 5 * x1W 1 j := by
  intro j
  rw [normPts_row1 x1W (thirdOne_finite x1W x1W_thirdOne) j, x1W_scale, x1W_c1,
    dehom_of_thirdOne x1W x1W_thirdOne]
  ring

theorem x2W_np0 : ∀ j, normPts x2W 0 j = 4 / 19 * x2W 0 j := by
  intro j
  rw [normPts_row0 x2W (thirdOne_finite x2W x2W_thirdOne) j, x2W_scale, x2W_c0,
    dehom_of_thirdOne x2W x2W_thirdOne]
  ring

theorem x2W_np1 : ∀ j, normPts x2W 1 j = 4 / 19 * x2W 1 j := by
  intro j
  rw [normPts_row1 x2W (thirdOne_finite x2W x2W_thirdOne) j, x2W_scale, x2W_c1,
    dehom_of_thirdOne x2W x2W_thirdOne]
  ring

theorem extractA_eq : extractF0 VhAW = FstarW := by
  ext i j
  fin_cases i <;> fin_cases j <;> rfl

theorem extractB_eq : extractF0 VhBW = GstarW := by
  ext i j
  fin_cases i <;> fin_cases j <;> rfl

theorem svdA_eq : U1W * Matrix.diagonal D1W * Vh1W = FstarW := by
  ext i j
  fin_cases i <;> fin_cases j <;>
    norm_num [Matrix.mul_apply, Matrix.diagonal, Fin.sum_univ_three,
      U1W, D1W, Vh1W, FstarW, Matrix.vecHead, Matrix.vecTail]

theorem svdB_eq : U2W * Matrix.diagonal D2W * Vh2W = GstarW := by
  ext i j
  fin_cases i <;> fin_cases j <;>
    norm_num [Matrix.mul_apply, Matrix.diagonal, Fin.sum_univ_three,
      U2W, D2W, Vh2W, GstarW, Matrix.vecHead, Matrix.vecTail]

theorem orthU1 : U1W.transpose * U1W = 1 := by
  ext i j
  fin_cases i <;> fin_cases j <;>
    norm_num [Matrix.mul_apply, Matrix.transpose_apply, Fin.sum_univ_three,
      U1W, Matrix.one_apply, Matrix.vecHead, Matrix.vecTail, Fin.ext_iff]

theorem orthV1 : Vh1W * Vh1W.transpose = 1 := by
  ext i j
  fin_cases i <;> fin_cases j <;>
    norm_num [Matrix.mul_apply, Matrix.transpose_apply, Fin.sum_univ_three,
      Vh1W, Matrix.one_apply, Matrix.vecHead, Matrix.vecTail, Fin.ext_iff]

theorem orthU2 : U2W.transpose * U2W = 1 := by
  ext i j
  fin_cases i <;> fin_cases j <;>
    norm_num [Matrix.mul_apply, Matrix.transpose_apply, Fin.sum_univ_three,
      U2W, Matrix.one_apply, Matrix.vecHead, Matrix.vecTail, Fin.ext_iff]

theorem orthV2 : Vh2W * Vh2W.transpose = 1 := by
  ext i j
  fin_cases i <;> fin_cases j <;>
    norm_num [Matrix.mul_apply, Matrix.transpose_apply, Fin.sum_univ_three,
      Vh2W, Matrix.one_apply, Matrix.vecHead, Matrix.vecTail, Fin.ext_iff]

theorem rowA_eq : (fun k => VhAW 8 k) = flatF FstarW := by
  funext k
  fin_cases k <;> rfl

theorem rowB_eq : (fun k => VhBW 8 k) = flatF GstarW := by
  funext k
  fin_cases k <;> rfl

theorem AnzW : (fun k => VhAW 8 k) ≠ (0 : Fin 9 → ℝ) := by
  intro h
  have h7 := congrFun h 7
  rw [show VhAW 8 7 = (1 : ℝ) from rfl] at h7
  norm_num at h7

theorem BnzW : (fun k => VhBW 8 k) ≠ (0 : Fin 9 → ℝ) := by
  intro h
  have h7 := congrFun h 7
  rw [show VhBW 8 7 = (5 : ℝ) from rfl] at h7
  norm_num at h7

theorem AnullW : (constraint_matrix x1W x2W).mulVec (fun k => VhAW 8 k) = 0 := by
  rw [rowA_eq]
  funext j
  show (constraint_matrix x1W x2W).mulVec (flatF FstarW) j = 0
  rw [constraint_mulVec_flatF x1W x2W x1W_thirdOne x2W_thirdOne FstarW j]
  exact W_exact j

theorem BnullW : (constraint_matrix (normPts x1W) (normPts x2W)).mulVec
    (fun k => VhBW 8 k) = 0 := by
  rw [rowB_eq]
  funext j
  show (constraint_matrix (normPts x1W) (normPts x2W)).mulVec (flatF GstarW) j = 0
  rw [constraint_mulVec_flatF (normPts x1W) (normPts x2W)
    (normPts_thirdOne x1W x1W_thirdOne) (normPts_thirdOne x2W x2W_thirdOne)
    GstarW j]
  simp only [Matrix.dotProduct, Matrix.mulVec, Fin.sum_univ_three, GstarW,
    Matrix.of_apply, Matrix.cons_val_zero, Matrix.cons_val_one,
    Matrix.head_cons, Matrix.cons_val_two, Matrix.vecHead, Matrix.vecTail,
    Function.comp_apply, Fin.succ_zero_eq_one]
  rw [normPts_thirdOne x1W x1W_thirdOne j, normPts_thirdOne x2W x2W_thirdOne j,
    x1W_np1 j, x2W_np1 j, x1W_row1_eq j]
  ring

theorem genAW : ∀ w : Fin 9 → ℝ, (constraint_matrix x1W x2W).mulVec w = 0 →
    ∃ c : ℝ, w = c • flatF FstarW := by
  intro w hw
  have h0 := congrFun hw 0
  rw [constraint_mulVec_apply x1W x2W w 0, show ((0 : Fin 8 → ℝ) 0) = 0 from rfl] at h0
  have h1 := congrFun hw 1
  rw [constraint_mulVec_apply x1W x2W w 1, show ((0 : Fin 8 → ℝ) 1) = 0 from rfl] at h1
  have h2 := congrFun hw 2
  rw [constraint_mulVec_apply x1W x2W w 2, show ((0 : Fin 8 → ℝ) 2) = 0 from rfl] at h2
  have h3 := congrFun hw 3
  rw [constraint_mulVec_apply x1W x2W w 3, show ((0 : Fin 8 → ℝ) 3) = 0 from rfl] at h3
  have h4 := congrFun hw 4
  rw [constraint_mulVec_apply x1W x2W w 4, show ((0 : Fin 8 → ℝ) 4) = 0 from rfl] at h4
  have h5 := congrFun hw 5
  rw [constraint_mulVec_apply x1W x2W w 5, show ((0 : Fin 8 → ℝ) 5) = 0 from rfl] at h5
  have h6 := congrFun hw 6
  rw [constraint_mulVec_apply x1W x2W w 6, show ((0 : Fin 8 → ℝ) 6) = 0 from rfl] at h6
  have h7 := congrFun hw 7
  rw [constraint_mulVec_apply x1W x2W w 7, show ((0 : Fin 8 → ℝ) 7) = 0 from rfl] at h7
  have g0 : 1 * 1 * w 0 + 1 * 7 * w 1 + 1 * w 2 + 7 * 1 * w 3 + 7 * 7 * w 4 + 7 * w 5 + 1 * w 6 + 7 * w 7 + w 8 = 0 := h0
  have g1 : 1 * 7 * w 0 + 1 * 1 * w 1 + 1 * w 2 + 1 * 7 * w 3 + 1 * 1 * w 4 + 1 * w 5 + 7 * w 6 + 1 * w 7 + w 8 = 0 := h1
  have g2 : 5 * 5 * w 0 + 5 * 5 * w 1 + 5 * w 2 + 5 * 5 * w 3 + 5 * 5 * w 4 + 5 * w 5 + 5 * w 6 + 5 * w 7 + w 8 = 0 := h2
  have g3 : 1 * -1 * w 0 + 1 * 7 * w 1 + 1 * w 2 + 7 * -1 * w 3 + 7 * 7 * w 4 + 7 * w 5 + -1 * w 6 + 7 * w 7 + w 8 = 0 := h3
  have g4 : 1 * 1 * w 0 + 1 * -7 * w 1 + 1 * w 2 + -7 * 1 * w 3 + -7 * -7 * w 4 + -7 * w 5 + 1 * w 6 + -7 * w 7 + w 8 = 0 := h4
  have g5 : -7 * -1 * w 0 + -7 * -7 * w 1 + -7 * w 2 + -7 * -1 * w 3 + -7 * -7 * w 4 + -7 * w 5 + -1 * w 6 + -7 * w 7 + w 8 = 0 := h5
  have g6 : -7 * -7 * w 0 + -7 * -1 * w 1 + -7 * w 2 + -1 * -7 * w 3 + -1 * -1 * w 4 + -1 * w 5 + -7 * w 6 + -1 * w 7 + w 8 = 0 := h6
  have g7 : 5 * -5 * w 0 + 5 * -5 * w 1 + 5 * w 2 + -5 * -5 * w 3 + -5 * -5 * w 4 + -5 * w 5 + -5 * w 6 + -5 * w 7 + w 8 = 0 := h7
  refine ⟨w 7, ?_⟩
  funext k
  fin_cases k
  · show w 0 = w 7 * 0
    linarith [g0, g1, g2, g3, g4, g5, g6, g7]
  · show w 1 = w 7 * 0
    linarith [g0, g1, g2, g3, g4, g5, g6, g7]
  · show w 2 = w 7 * 0
    linarith [g0, g1, g2, g3, g4, g5, g6, g7]
  · show w 3 = w 7 * 0
    linarith [g0, g1, g2, g3, g4, g5, g6, g7]
  · show w 4 = w 7 * 0
    linarith [g0, g1, g2, g3, g4, g5, g6, g7]
  · show w 5 = w 7 * -1
    linarith [g0, g1, g2, g3, g4, g5, g6, g7]
  · show w 6 = w 7 * 0
    linarith [g0, g1, g2, g3, g4, g5, g6, g7]
  · show w 7 = w 7 * 1
    linarith [g0, g1, g2, g3, g4, g5, g6, g7]
  · show w 8 = w 7 * 0
    linarith [g0, g1, g2, g3, g4, g5, g6, g7]


set_option maxHeartbeats 6400000 in
theorem genBW : ∀ w : Fin 9 → ℝ,
    (constraint_matrix (normPts x1W) (normPts x2W)).mulVec w = 0 →
    ∃ c : ℝ, w = c • flatF GstarW := by
  intro w hw
  have h0 := congrFun hw 0
  rw [constraint_mulVec_apply (normPts x1W) (normPts x2W) w 0,
    show ((0 : Fin 8 → ℝ) 0) = 0 from rfl] at h0
  simp only [x1W_np0, x1W_np1, x2W_np0, x2W_np1] at h0
  have h1 := congrFun hw 1
  rw [constraint_mulVec_apply (normPts x1W) (normPts x2W) w 1,
    show ((0 : Fin 8 → ℝ) 1) = 0 from rfl] at h1
  simp only [x1W_np0, x1W_np1, x2W_np0, x2W_np1] at h1
  have h2 := congrFun hw 2
  rw [constraint_mulVec_apply (normPts x1W) (normPts x2W) w 2,
    show ((0 : Fin 8 → ℝ) 2) = 0 from rfl] at h2
  simp only [x1W_np0, x1W_np1, x2W_np0, x2W_np1] at h2
  have h3 := congrFun hw 3
  rw [constraint_mulVec_apply (normPts x1W) (normPts x2W) w 3,
    show ((0 : Fin 8 → ℝ) 3) = 0 from rfl] at h3
  simp only [x1W_np0, x1W_np1, x2W_np0, x2W_np1] at h3
  have h4 := congrFun hw 4
  rw [constraint_mulVec_apply (normPts x1W) (normPts x2W) w 4,
    show ((0 : Fin 8 → ℝ) 4) = 0 from rfl] at h4
  simp only [x1W_np0, x1W_np1, x2W_np0, x2W_np1] at h4
  have h5 := congrFun hw 5
  rw [constraint_mulVec_apply (normPts x1W) (normPts x2W) w 5,
    show ((0 : Fin 8 → ℝ) 5) = 0 from rfl] at h5
  simp only [x1W_np0, x1W_np1, x2W_np0, x2W_np1] at h5
  have h6 := congrFun hw 6
  rw [constraint_mulVec_apply (normPts x1W) (normPts x2W) w 6,
    show ((0 : Fin 8 → ℝ) 6) = 0 from rfl] at h6
  simp only [x1W_np0, x1W_np1, x2W_np0, x2W_np1] at h6
  have h7 := congrFun hw 7
  rw [constraint_mulVec_apply (normPts x1W) (normPts x2W) w 7,
    show ((0 : Fin 8 → ℝ) 7) = 0 from rfl] at h7
  simp only [x1W_np0, x1W_np1, x2W_np0, x2W_np1] at h7
  have g0 : 4 / 19 * 1 * (1 / 5 * 1) * w 0 + 4 / 19 * 1 * (1 / 5 * 7) * w 1 + 4 / 19 * 1 * w 2 + 4 / 19 * 7 * (1 / 5 * 1) * w 3 + 4 / 19 * 7 * (1 / 5 * 7) * w 4 + 4 / 19 * 7 * w 5 + 1 / 5 * 1 * w 6 + 1 / 5 * 7 * w 7 + w 8 = 0 := h0
  have g1 : 4 / 19 * 1 * (1 / 5 * 7) * w 0 + 4 / 19 * 1 * (1 / 5 * 1) * w 1 + 4 / 19 * 1 * w 2 + 4 / 19 * 1 * (1 / 5 * 7) * w 3 + 4 / 19 * 1 * (1 / 5 * 1) * w 4 + 4 / 19 * 1 * w 5 + 1 / 5 * 7 * w 6 + 1 / 5 * 1 * w 7 + w 8 = 0 := h1
  have g2 : 4 / 19 * 5 * (1 / 5 * 5) * w 0 + 4 / 19 * 5 * (1 / 5 * 5) * w 1 + 4 / 19 * 5 * w 2 + 4 / 19 * 5 * (1 / 5 * 5) * w 3 + 4 / 19 * 5 * (1 / 5 * 5) * w 4 + 4 / 19 * 5 * w 5 + 1 / 5 * 5 * w 6 + 1 / 5 * 5 * w 7 + w 8 = 0 := h2
  have g3 : 4 / 19 * 1 * (1 / 5 * -1) * w 0 + 4 / 19 * 1 * (1 / 5 * 7) * w 1 + 4 / 19 * 1 * w 2 + 4 / 19 * 7 * (1 / 5 * -1) * w 3 + 4 / 19 * 7 * (1 / 5 * 7) * w 4 + 4 / 19 * 7 * w 5 + 1 / 5 * -1 * w 6 + 1 / 5 * 7 * w 7 + w 8 = 0 := h3
  have g4 : 4 / 19 * 1 * (1 / 5 * 1) * w 0 + 4 / 19 * 1 * (1 / 5 * -7) * w 1 + 4 / 19 * 1 * w 2 + 4 / 19 * -7 * (1 / 5 * 1) * w 3 + 4 / 19 * -7 * (1 / 5 * -7) * w 4 + 4 / 19 * -7 * w 5 + 1 / 5 * 1 * w 6 + 1 / 5 * -7 * w 7 + w 8 = 0 := h4
  have g5 : 4 / 19 * -7 * (1 / 5 * -1) * w 0 + 4 / 19 * -7 * (1 / 5 * -7) * w 1 + 4 / 19 * -7 * w 2 + 4 / 19 * -7 * (1 / 5 * -1) * w 3 + 4 / 19 * -7 * (1 / 5 * -7) * w 4 + 4 / 19 * -7 * w 5 + 1 / 5 * -1 * w 6 + 1 / 5 * -7 * w 7 + w 8 = 0 := h5
  have g6 : 4 / 19 * -7 * (1 / 5 * -7) * w 0 + 4 / 19 * -7 * (1 / 5 * -1) * w 1 + 4 / 19 * -7 * w 2 + 4 / 19 * -1 * (1 / 5 * -7) * w 3 + 4 / 19 * -1 * (1 / 5 * -1) * w 4 + 4 / 19 * -1 * w 5 + 1 / 5 * -7 * w 6 + 1 / 5 * -1 * w 7 + w 8 = 0 := h6
  have g7 : 4 / 19 * 5 * (1 / 5 * -5) * w 0 + 4 / 19 * 5 * (1 / 5 * -5) * w 1 + 4 / 19 * 5 * w 2 + 4 / 19 * -5 * (1 / 5 * -5) * w 3 + 4 / 19 * -5 * (1 / 5 * -5) * w 4 + 4 / 19 * -5 * w 5 + 1 / 5 * -5 * w 6 + 1 / 5 * -5 * w 7 + w 8 = 0 := h7
  ring_nf at g0 g1 g2 g3 g4 g5 g6 g7
  refine ⟨w 7 / 5, ?_⟩
  funext k
  fin_cases k
  · show w 0 = w 7 / 5 * 0
    linarith [g0, g1, g2, g3, g4, g5, g6, g7]
  · show w 1 = w 7 / 5 * 0
    linarith [g0, g1, g2, g3, g4, g5, g6, g7]
  · show w 2 = w 7 / 5 * 0
    linarith [g0, g1, g2, g3, g4, g5, g6, g7]
  · show w 3 = w 7 / 5 * 0
    linarith [g0, g1, g2, g3, g4, g5, g6, g7]
  · show w 4 = w 7 / 5 * 0
    linarith [g0, g1, g2, g3, g4, g5, g6, g7]
  · show w 5 = w 7 / 5 * -(19 / 4)
    linarith [g0, g1, g2, g3, g4, g5, g6, g7]
  · show w 6 = w 7 / 5 * 0
    linarith [g0, g1, g2, g3, g4, g5, g6, g7]
  · show w 7 = w 7 / 5 * 5
    linarith [g0, g1, g2, g3, g4, g5, g6, g7]
  · show w 8 = w 7 / 5 * 0
    linarith [g0, g1, g2, g3, g4, g5, g6, g7]

/-- Witness for C9 at a concrete rectified stereo instance: eight
integer correspondences on circles about the origin (left mean centred
distance 5√2, right 19√2/4), true matrix `FstarW` (the rectified-pair
fundamental matrix), and explicit SVD factors for both extracted F₀
matrices. -/
theorem C9_round_trip_up_to_scale_witness :
    (∃ c : ℝ, c ≠ 0 ∧
      eight_point_algorithm true (normT x1W) (normT x2W) U2W D2W Vh2W =
        c • eight_point_algorithm false (normT x1W) (normT x2W) U1W D1W Vh1W) ∧
    (∀ (T1 T2 U : M3) (D : Fin 3 → ℝ) (Vh : M3),
      eight_point_algorithm false T1 T2 U D Vh = rank2_reduce U D Vh) ∧
    (constraint_matrix x1W x2W).mulVec (flatF FstarW) = 0 ∧
    (constraint_matrix (normPts x1W) (normPts x2W)).mulVec
      (flatF ((normTinv x2W).transpose * FstarW * normTinv x1W)) = 0 := by
  have hgB : ∀ w : Fin 9 → ℝ,
      (constraint_matrix (normPts x1W) (normPts x2W)).mulVec w = 0 →
      ∃ c : ℝ, w = c • flatF ((normTinv x2W).transpose * FstarW * normTinv x1W) := by
    simp only [GW_eq]
    exact genBW
  have hsvd1 : extractF0 VhAW = U1W * Matrix.diagonal D1W * Vh1W := by
    rw [extractA_eq]
    exact svdA_eq.symm
  have hsvd2 : extractF0 VhBW = U2W * Matrix.diagonal D2W * Vh2W := by
    rw [extractB_eq]
    exact svdB_eq.symm
  exact C9_round_trip_up_to_scale x1W x2W (le_refl 8) x1W_thirdOne x2W_thirdOne
    x1W_md_pos x2W_md_pos FstarW FstarW_det W_exact
    VhAW AnzW AnullW genAW U1W D1W Vh1W hsvd1 orthU1 orthV1
    (by norm_num [D1W, Matrix.vecHead, Matrix.vecTail])
    (by norm_num [D1W, Matrix.vecHead, Matrix.vecTail])
    (by norm_num [D1W, Matrix.vecHead, Matrix.vecTail])
    VhBW BnzW BnullW hgB U2W D2W Vh2W hsvd2 orthU2 orthV2
    (by norm_num [D2W, Matrix.vecHead, Matrix.vecTail])
    (by norm_num [D2W, Matrix.vecHead, Matrix.vecTail])
    (by norm_num [D2W, Matrix.vecHead, Matrix.vecTail])
